import Mathlib

/-! Interval-set algebra of `src/c++/main.cpp`.

A shallow embedding of `Range<T>`, `LogicalOperations<T>` (operators `and`, `or`, `!`,
`-`, `^`), `Mask::to_collapsed` and of the arithmetic of the three instantiations
`uint16_t`, `uint32_t`, `uint64_t`, followed by theorems about them.

Conventions of the embedding.

* A bound is a natural number; a value of the `w`-bit type is a number below `2 ^ w`.
* `uint16_t` operands are promoted to `int` before `+ 1` / `- 1` (the usual 32-bit `int`),
  so `end + 1` is exact on the 16-bit domain; on `uint32_t` and `uint64_t` the arithmetic
  is unsigned and wraps modulo `2 ^ 32` / `2 ^ 64`.  Whatever is stored back into a
  `Range<T>` is reduced modulo `2 ^ w` (conversion to `T`).
* `std::sort` is not stable: every arrangement of the working sequence that is ascending
  by `begin` is a possible outcome (`SortOutcome`), and statements about the operators
  range over all of them.  `sortByBegin` is one such outcome, the one that keeps elements of
  equal `begin` in the order of concatenation; it is the program's sort only where the
  working sequence has a single outcome, and `lor`, `lxor` are the operators for that one
  outcome.
* Reading `front()` of an empty vector is undefined; the embedding returns `none` there.
* The loops run over indices; the embedding recurses over the remaining part of the
  sequence (sequences are taken to be shorter than `2 ^ 31`, the range of the `int` index).
-/

namespace Ranges

/-- The three instantiations `Range<uint16_t>`, `Range<uint32_t>`, `Range<uint64_t>`
(lines 37-39). -/
inductive Width where
  | w16
  | w32
  | w64
  deriving DecidableEq, Repr

/-- Number of bits of the underlying unsigned type. -/
def Width.bits : Width → Nat
  | .w16 => 16
  | .w32 => 32
  | .w64 => 64

/-- Number of values of the type, `2 ^ bits`. -/
def Width.card (w : Width) : Nat := 2 ^ w.bits

/-- The constant `Range<T>::min()`, i.e. `numeric_limits<T>::min()` (line 19). -/
def Width.min (_w : Width) : Nat := 0

/-- The constant `Range<T>::max()`, i.e. `numeric_limits<T>::max()` (line 23). -/
def Width.max (w : Width) : Nat := w.card - 1

/-- The class `Range<T>` (lines 14-29): an inclusive pair of bounds. -/
structure Range where
  begin : Nat
  end_ : Nat
  deriving DecidableEq, Repr

/-- Membership of a value in one interval: `begin <= x <= end`. -/
def Range.Contains (r : Range) (x : Nat) : Prop := r.begin ≤ x ∧ x ≤ r.end_

instance (r : Range) (x : Nat) : Decidable (r.Contains x) :=
  inferInstanceAs (Decidable (r.begin ≤ x ∧ x ≤ r.end_))

/-- Membership of a value in a sequence of intervals: it lies in some interval. -/
def Covers (S : List Range) (x : Nat) : Prop := ∃ r ∈ S, r.Contains x

instance (S : List Range) (x : Nat) : Decidable (Covers S x) :=
  inferInstanceAs (Decidable (∃ r ∈ S, r.Contains x))

/-- Every bound of every interval is a value of the `w`-bit type. -/
def InDomain (w : Width) (S : List Range) : Prop :=
  ∀ r ∈ S, r.begin < w.card ∧ r.end_ < w.card

instance (w : Width) (S : List Range) : Decidable (InDomain w S) :=
  inferInstanceAs (Decidable (∀ r ∈ S, r.begin < w.card ∧ r.end_ < w.card))

/-- Every interval has `begin <= end`. -/
def WellFormed (S : List Range) : Prop := ∀ r ∈ S, r.begin ≤ r.end_

instance (S : List Range) : Decidable (WellFormed S) :=
  inferInstanceAs (Decidable (∀ r ∈ S, r.begin ≤ r.end_))

/-- Consecutive intervals `a`, `b` of the sequence satisfy `a.end + 1 < b.begin`, as
integers: the sequence is sorted, its intervals are disjoint and no two are adjacent. -/
def Separated : List Range → Prop
  | a :: b :: rest => a.end_ + 1 < b.begin ∧ Separated (b :: rest)
  | _ => True

/-- Deciding `Separated` by going through the sequence. -/
def decSeparated : (S : List Range) → Decidable (Separated S)
  | [] => isTrue trivial
  | [_] => isTrue trivial
  | a :: b :: rest =>
    match Nat.decLt (a.end_ + 1) b.begin, decSeparated (b :: rest) with
    | isTrue h1, isTrue h2 => isTrue ⟨h1, h2⟩
    | isFalse h1, _ => isFalse (fun h => h1 h.1)
    | _, isFalse h2 => isFalse (fun h => h2 h.2)

instance (S : List Range) : Decidable (Separated S) := decSeparated S

/-- Canonical form over the `w`-bit domain: bounds are values of the type, every interval
has `begin <= end`, and consecutive intervals `a`, `b` satisfy `a.end + 1 < b.begin`. -/
def Canonical (w : Width) (S : List Range) : Prop :=
  InDomain w S ∧ WellFormed S ∧ Separated S

instance (w : Width) (S : List Range) : Decidable (Canonical w S) :=
  inferInstanceAs (Decidable (InDomain w S ∧ WellFormed S ∧ Separated S))

/-! ## Machine arithmetic -/

/-- The value of `x + 1` as the comparison on line 84 sees it: exact for `uint16_t`
(promoted to `int`), modulo `2 ^ w` for `uint32_t` and `uint64_t`. -/
def succCmp (w : Width) (x : Nat) : Nat :=
  match w with
  | .w16 => x + 1
  | .w32 => (x + 1) % 2 ^ 32
  | .w64 => (x + 1) % 2 ^ 64

/-- The value of `x + 1` once stored in a `T` (lines 107, 110, 114). -/
def incr (w : Width) (x : Nat) : Nat := (x + 1) % w.card

/-- The value of `x - 1` once stored in a `T` (lines 103, 108, 110). -/
def decr (w : Width) (x : Nat) : Nat := (x + w.card - 1) % w.card

/-- Checked `x + 1`: `none` when the stored result differs from the integer `x + 1`. -/
def incrChecked (w : Width) (x : Nat) : Option Nat :=
  if x + 1 < w.card then some (x + 1) else none

/-- Checked `x - 1`: `none` when the stored result differs from the integer `x - 1`. -/
def decrChecked (_w : Width) (x : Nat) : Option Nat :=
  if 1 ≤ x then some (x - 1) else none

/-! ## `operator and` (lines 47-69) -/

/-- The two-pointer loop of `operator and`, the two arguments being the parts of the
operands from `own_index` and from `other_index` on. -/
def land : List Range → List Range → List Range
  | [], _ => []
  | _ :: _, [] => []
  | a :: as, b :: bs =>
    let emitted :=
      if b.begin ≤ a.end_ ∧ a.begin ≤ b.end_ then
        [Range.mk (Nat.max a.begin b.begin) (Nat.min a.end_ b.end_)]
      else []
    if a.end_ > b.end_ then emitted ++ land (a :: as) bs
    else emitted ++ land as (b :: bs)
termination_by A B => A.length + B.length

/-! ## `operator or` (lines 71-92) -/

/-- The comparator handed to `std::sort` on line 78 orders by `begin`; a sorted result has
`a.begin <= b.begin` for `a` before `b`. -/
def BeginLE (a b : Range) : Prop := a.begin ≤ b.begin

instance : DecidableRel BeginLE :=
  fun a b => inferInstanceAs (Decidable (a.begin ≤ b.begin))

/-- What `std::sort` on line 78 may leave in `all_ranges`: any rearrangement of the input
that is ascending by `begin`. -/
def SortOutcome (input sorted : List Range) : Prop :=
  sorted.Perm input ∧ sorted.Sorted BeginLE

/-- One outcome of the sort of line 78: the one that keeps intervals of equal `begin` in
their input order (`sortOutcome_sortByBegin`).  `std::sort` may return any other
`SortOutcome`; the two agree where intervals of equal `begin` are equal
(`sortOutcome_unique`). -/
def sortByBegin (l : List Range) : List Range := l.insertionSort BeginLE

/-- The test on line 84: `ans.back().end + 1 >= cur.begin and ans.back().end <= cur.end`. -/
def mergeTest (w : Width) (last cur : Range) : Bool :=
  decide (succCmp w last.end_ ≥ cur.begin) && decide (last.end_ ≤ cur.end_)

/-- The loop of lines 83-89; `last` is `ans.back()`, the intervals before it are final. -/
def sweep (w : Width) (last : Range) : List Range → List Range
  | [] => [last]
  | cur :: rest =>
    if mergeTest w last cur then
      sweep w (Range.mk last.begin (Nat.max last.end_ cur.end_)) rest
    else last :: sweep w cur rest

/-- Lines 80-91 on the sorted working sequence; `front()` of an empty sequence is
undefined. -/
def orSorted (w : Width) : List Range → Option (List Range)
  | [] => none
  | first :: rest => some (sweep w first rest)

/-- The operator `or` for one outcome of its sort, `sortByBegin`, which keeps intervals of
equal `begin` in concatenation order.  For the other outcomes the operator returns
`orSorted` of them; the two agree where the working sequence has a single sort outcome. -/
def lor (w : Width) (A B : List Range) : Option (List Range) :=
  orSorted w (sortByBegin (A ++ B))

/-- Order by `begin` in which intervals of equal `begin` are equal: the order of a working
sequence whose distinct intervals have distinct `begin`. -/
def BeginLEStrict (a b : Range) : Prop := a.begin ≤ b.begin ∧ (a.begin = b.begin → a = b)

instance : IsAntisymm Range BeginLEStrict :=
  ⟨fun _ _ h1 h2 => h1.2 (Nat.le_antisymm h1.1 h2.1)⟩

/-- The comparison `end + 1 >= begin` of line 84 holds for an interval against itself
unless the sum wraps: on the 16-bit domain always, on the others unless the interval ends
at `T::MAX` and does not begin at `0`. -/
def SelfMerges (w : Width) (r : Range) : Prop :=
  w = Width.w16 ∨ r.end_ ≠ w.max ∨ r.begin = 0

instance (w : Width) (r : Range) : Decidable (SelfMerges w r) :=
  inferInstanceAs (Decidable (w = Width.w16 ∨ r.end_ ≠ w.max ∨ r.begin = 0))

/-- Every interval of the sequence written twice in a row: the sorted form of `S ++ S` for a
canonical `S`. -/
def twice : List Range → List Range
  | [] => []
  | a :: l => a :: a :: twice l

/-! ## `operator!` (lines 94-118) -/

/-- The loop of lines 106-111: one gap per pair of consecutive intervals. -/
def gaps (w : Width) : List Range → List Range
  | a :: b :: rest => Range.mk (incr w a.end_) (decr w b.begin) :: gaps w (b :: rest)
  | _ => []

/-- The operator `!`. -/
def lnot (w : Width) (S : List Range) : List Range :=
  match S with
  | [] => [Range.mk w.min w.max]
  | first :: rest =>
    let lead := if first.begin ≠ 0 then [Range.mk w.min (decr w first.begin)] else []
    let back := (first :: rest).getLast (List.cons_ne_nil first rest)
    let trail := if back.end_ ≠ w.max then [Range.mk (incr w back.end_) w.max] else []
    lead ++ gaps w (first :: rest) ++ trail

/-- Lines 106-115 as one recursion: the gaps between consecutive intervals followed by the
trailing gap after the last interval (see `lnot_cons`). -/
def gapsTrail (w : Width) : List Range → List Range
  | [] => []
  | [a] => if a.end_ ≠ w.max then [Range.mk (incr w a.end_) w.max] else []
  | a :: b :: rest => Range.mk (incr w a.end_) (decr w b.begin) :: gapsTrail w (b :: rest)

/-- The loop of lines 106-111 with checked arithmetic. -/
def gapsChecked (w : Width) : List Range → Option (List Range)
  | a :: b :: rest => do
    let lo ← incrChecked w a.end_
    let hi ← decrChecked w b.begin
    let more ← gapsChecked w (b :: rest)
    pure (Range.mk lo hi :: more)
  | _ => some []

/-- The operator `!` with checked arithmetic: `none` as soon as a `begin - 1` or an
`end + 1` it computes wraps around. -/
def lnotChecked (w : Width) (S : List Range) : Option (List Range) :=
  match S with
  | [] => some [Range.mk w.min w.max]
  | first :: rest => do
    let lead ← if first.begin ≠ 0 then
        (decrChecked w first.begin).map (fun e => [Range.mk w.min e])
      else some []
    let mid ← gapsChecked w (first :: rest)
    let back := (first :: rest).getLast (List.cons_ne_nil first rest)
    let trail ← if back.end_ ≠ w.max then
        (incrChecked w back.end_).map (fun b => [Range.mk b w.max])
      else some []
    pure (lead ++ mid ++ trail)

/-! ## `operator-` and `operator^` (lines 120-126) -/

/-- The operator `-`: `*this && !other`. -/
def lsub (w : Width) (A B : List Range) : List Range := land A (lnot w B)

/-- The operator `^`: `*this - other || other - *this`, with `lor` for `||`, that is for
the sort outcome `sortByBegin`; the other outcomes are `orSorted` on the sort outcomes of
`lsub w A B ++ lsub w B A`. -/
def lxor (w : Width) (A B : List Range) : Option (List Range) :=
  lor w (lsub w A B) (lsub w B A)

/-- One step of a sorted working sequence on which the sweep yields a canonical result: the
next interval is a copy of the present one that passes the test of line 84 against it, or
it begins past the end of the present one. -/
def Step (w : Width) (a b : Range) : Prop := (b = a ∧ SelfMerges w a) ∨ a.end_ < b.begin

/-- Two intervals without a common value, for intervals with `begin <= end`. -/
def Disjoint (a b : Range) : Prop := a.end_ < b.begin ∨ b.end_ < a.begin

/-! ## `Mask` (lines 132-160) -/

/-- The class `Mask`: IP ranges over `uint32_t` and port ranges over `uint16_t`. -/
structure Mask where
  ips_ranges : List Range
  port_ranges : List Range
  deriving Repr

/-- The values the loop variable `ip` of line 146 takes: from `addrs.begin` up to `addrs.end`
inclusive, none when `addrs.begin > addrs.end`.  The variable is a `uint64_t` and
`addrs.end` a `uint32_t`, so `++ip` does not wrap. -/
def ipValues (addrs : Range) : List Nat :=
  List.range' addrs.begin (addrs.end_ + 1 - addrs.begin)

/-- The value `ip << 16` of line 147, in `uint64_t`. -/
def baseAddr (ip : Nat) : Nat := (ip <<< 16) % 2 ^ 64

/-- The sums `base_addr + port.begin` and `base_addr + port.end` of line 150, in
`uint64_t`. -/
def addPort (base port : Nat) : Nat := (base + port) % 2 ^ 64

/-- The inner loop of `Mask::to_collapsed` (lines 147-151): the intervals emitted for one
address, one for every port range. -/
def Mask.intervalsOf (m : Mask) (ip : Nat) : List Range :=
  m.port_ranges.map fun port =>
    Range.mk (addPort (baseAddr ip) port.begin) (addPort (baseAddr ip) port.end_)

/-- The method `Mask::to_collapsed` (lines 142-156): for every IP range, for every address
in it, for every port range, one interval, in this order. -/
def Mask.to_collapsed (m : Mask) : List Range :=
  m.ips_ranges.flatMap fun addrs => (ipValues addrs).flatMap m.intervalsOf

/-- Two values lie in one and the same interval of the sequence. -/
def InOneInterval (S : List Range) (u v : Nat) : Prop := ∃ r ∈ S, r.Contains u ∧ r.Contains v

/-! ## Basic facts -/

theorem succCmp_le (w : Width) (x : Nat) : succCmp w x ≤ x + 1 := by
  cases w <;> simp only [succCmp] <;> first | exact le_rfl | exact Nat.mod_le _ _

theorem covers_nil (x : Nat) : ¬ Covers [] x := by
  simp [Covers]

theorem covers_cons (r : Range) (S : List Range) (x : Nat) :
    Covers (r :: S) x ↔ r.Contains x ∨ Covers S x := by
  simp [Covers]

theorem covers_append (S T : List Range) (x : Nat) :
    Covers (S ++ T) x ↔ Covers S x ∨ Covers T x := by
  simp [Covers, or_and_right, exists_or]

theorem covers_perm {S T : List Range} (h : S.Perm T) (x : Nat) :
    Covers S x ↔ Covers T x := by
  simp only [Covers]
  constructor
  · rintro ⟨r, hr, hx⟩; exact ⟨r, h.mem_iff.mp hr, hx⟩
  · rintro ⟨r, hr, hx⟩; exact ⟨r, h.mem_iff.mpr hr, hx⟩

theorem sortOutcome_sortByBegin (l : List Range) : SortOutcome l (sortByBegin l) := by
  refine ⟨List.perm_insertionSort _ l, ?_⟩
  haveI : IsTotal Range BeginLE := ⟨fun a b => Nat.le_total a.begin b.begin⟩
  haveI : IsTrans Range BeginLE := ⟨fun a b c h1 h2 => Nat.le_trans h1 h2⟩
  exact List.sorted_insertionSort BeginLE l

/-! ## The sweep of `operator or` keeps the member values -/

theorem mergeTest_true {w : Width} {last cur : Range} (h : mergeTest w last cur = true) :
    cur.begin ≤ last.end_ + 1 ∧ last.end_ ≤ cur.end_ := by
  simp only [mergeTest, Bool.and_eq_true, decide_eq_true_eq] at h
  exact ⟨le_trans h.1 (succCmp_le w _), h.2⟩

theorem sweep_covers (w : Width) (x : Nat) :
    ∀ (rest : List Range) (last : Range), (∀ c ∈ rest, last.begin ≤ c.begin) →
      rest.Sorted BeginLE →
      (Covers (sweep w last rest) x ↔ last.Contains x ∨ Covers rest x) := by
  intro rest
  induction rest with
  | nil =>
    intro last _ _
    simp [sweep, Covers]
  | cons cur rest ih =>
    intro last hlast hsorted
    have hcur : last.begin ≤ cur.begin := hlast cur (List.mem_cons_self _ _)
    have hrest : ∀ c ∈ rest, last.begin ≤ c.begin :=
      fun c hc => hlast c (List.mem_cons_of_mem _ hc)
    have hs := List.sorted_cons.mp hsorted
    simp only [sweep]
    split
    · rename_i hm
      have ht := mergeTest_true hm
      have hmerged : (Range.mk last.begin (last.end_.max cur.end_)).Contains x ↔
          last.Contains x ∨ cur.Contains x := by
        simp only [Range.Contains, Nat.max_def]
        split <;> omega
      rw [ih (Range.mk last.begin (last.end_.max cur.end_)) hrest hs.2, covers_cons, hmerged,
        or_assoc]
    · rw [covers_cons, ih cur hs.1 hs.2, covers_cons]

/-- Every outcome of the sort of a non-empty working sequence is swept to a result, and the
result has the member values of the working sequence. -/
theorem orSorted_covers (w : Width) (input sorted : List Range) (hne : input ≠ [])
    (hs : SortOutcome input sorted) :
    ∃ res, orSorted w sorted = some res ∧ ∀ x, Covers res x ↔ Covers input x := by
  obtain ⟨hperm, hsorted⟩ := hs
  cases sorted with
  | nil => exact absurd (List.Perm.nil_eq hperm).symm hne
  | cons first rest =>
    refine ⟨sweep w first rest, rfl, fun x => ?_⟩
    have hsc := List.sorted_cons.mp hsorted
    rw [sweep_covers w x rest first hsc.1 hsc.2, ← covers_cons]
    exact covers_perm hperm x

/-- The sort has one possible outcome on two intervals of different `begin`. -/
theorem sortOutcome_pair {a b : Range} (hab : a.begin < b.begin) {sorted : List Range}
    (hs : SortOutcome [a, b] sorted) : sorted = [a, b] := by
  obtain ⟨hperm, hsorted⟩ := hs
  have hlen : sorted.length = 2 := by simpa using hperm.length_eq
  obtain ⟨x, y, rfl⟩ := List.length_eq_two.mp hlen
  have hxy : x.begin ≤ y.begin := by
    have := (List.sorted_cons.mp hsorted).1 y (List.mem_singleton_self y)
    exact this
  have hx : x = a ∨ x = b := by simpa using hperm.mem_iff.mp (List.mem_cons_self x [y])
  have ha : a = x ∨ a = y := by simpa using hperm.mem_iff.mpr (List.mem_cons_self a [b])
  have hb : b = x ∨ b = y := by
    simpa using hperm.mem_iff.mpr (List.mem_cons_of_mem a (List.mem_singleton_self b))
  rcases hx with rfl | rfl
  · rcases hb with rfl | rfl
    · exact absurd hab (lt_irrefl _)
    · rfl
  · rcases ha with rfl | rfl
    · exact absurd hab (lt_irrefl _)
    · exact absurd hab (not_lt.mpr hxy)

/-! ## Canonical sequences -/

theorem WellFormed.wf_tail {a : Range} {l : List Range} (h : WellFormed (a :: l)) :
    WellFormed l := fun r hr => h r (List.mem_cons_of_mem _ hr)

theorem InDomain.dom_tail {w : Width} {a : Range} {l : List Range} (h : InDomain w (a :: l)) :
    InDomain w l := fun r hr => h r (List.mem_cons_of_mem _ hr)

theorem Separated.sep_tail {a : Range} {l : List Range} (h : Separated (a :: l)) :
    Separated l := by
  cases l with
  | nil => trivial
  | cons b rest => exact h.2

theorem Canonical.can_tail {w : Width} {a : Range} {l : List Range} (h : Canonical w (a :: l)) :
    Canonical w l := ⟨h.1.dom_tail, h.2.1.wf_tail, h.2.2.sep_tail⟩

/-- In a separated sequence of well-formed intervals every later interval starts more than
one past the end of the first. -/
theorem separated_lt_of_mem : ∀ (l : List Range) (a : Range), WellFormed (a :: l) →
    Separated (a :: l) → ∀ c ∈ l, a.end_ + 1 < c.begin := by
  intro l
  induction l with
  | nil => intro a _ _ c hc; cases hc
  | cons b rest ih =>
    intro a hwf hsep c hc
    have hb : b.begin ≤ b.end_ := hwf b (List.mem_cons_of_mem _ (List.mem_cons_self _ _))
    rcases List.mem_cons.mp hc with rfl | hc
    · exact hsep.1
    · have := ih b hwf.wf_tail hsep.2 c hc
      have := hsep.1
      omega

theorem not_covers_of_lt {l : List Range} {a : Range} (hwf : WellFormed (a :: l))
    (hsep : Separated (a :: l)) {x : Nat} (hx : x ≤ a.end_ + 1) : ¬ Covers l x := by
  rintro ⟨c, hc, hcx⟩
  have := separated_lt_of_mem l a hwf hsep c hc
  have := hcx.1
  omega

/-! ## `operator and` on canonical operands -/

theorem land_covers (x : Nat) (A B : List Range) :
    WellFormed A → Separated A → WellFormed B → Separated B →
      (Covers (land A B) x ↔ Covers A x ∧ Covers B x) := by
  induction A, B using land.induct with
  | case1 B => intro _ _ _ _; simp [land, Covers]
  | case2 a as => intro _ _ _ _; simp [land, Covers]
  | case3 a as b bs hgt ih =>
    intro hA sA hB sB
    have hbs : ¬ Covers bs x ∨ b.end_ + 1 < x := by
      by_cases h : x ≤ b.end_ + 1
      · exact Or.inl (not_covers_of_lt hB sB h)
      · exact Or.inr (by omega)
    have has : Covers as x → a.end_ + 1 < x := by
      rintro ⟨c, hc, hcx⟩
      have := separated_lt_of_mem as a hA sA c hc
      have := hcx.1
      omega
    rw [land, if_pos hgt, covers_append, ih hA sA hB.wf_tail sB.sep_tail, covers_cons, covers_cons]
    by_cases hov : b.begin ≤ a.end_ ∧ a.begin ≤ b.end_
    · simp only [if_pos hov, covers_cons, Range.Contains, Nat.max_def, Nat.min_def]
      have := covers_nil x
      constructor
      · rintro (h | h)
        · rcases h with h | h
          · split at h <;> split at h <;> (refine ⟨Or.inl ?_, Or.inl ?_⟩ <;> omega)
          · exact absurd h this
        · exact ⟨h.1, Or.inr h.2⟩
      · rintro ⟨h1, h2⟩
        rcases h2 with h2 | h2
        · rcases h1 with h1 | h1
          · refine Or.inl (Or.inl ?_)
            split <;> split <;> omega
          · have := has h1
            omega
        · exact Or.inr ⟨h1, h2⟩
    · simp only [if_neg hov, Range.Contains]
      have := covers_nil x
      constructor
      · rintro (h | h)
        · exact absurd h this
        · exact ⟨h.1, Or.inr h.2⟩
      · rintro ⟨h1, h2⟩
        rcases h2 with h2 | h2
        · rcases h1 with h1 | h1
          · omega
          · have := has h1
            omega
        · exact Or.inr ⟨h1, h2⟩
  | case4 a as b bs hgt ih =>
    intro hA sA hB sB
    have has : Covers as x → a.end_ + 1 < x := by
      rintro ⟨c, hc, hcx⟩
      have := separated_lt_of_mem as a hA sA c hc
      have := hcx.1
      omega
    have hbs : Covers bs x → b.end_ + 1 < x := by
      rintro ⟨c, hc, hcx⟩
      have := separated_lt_of_mem bs b hB sB c hc
      have := hcx.1
      omega
    rw [land, if_neg hgt, covers_append, ih hA.wf_tail sA.sep_tail hB sB, covers_cons, covers_cons]
    by_cases hov : b.begin ≤ a.end_ ∧ a.begin ≤ b.end_
    · simp only [if_pos hov, covers_cons, Range.Contains, Nat.max_def, Nat.min_def]
      have := covers_nil x
      constructor
      · rintro (h | h)
        · rcases h with h | h
          · split at h <;> split at h <;> (refine ⟨Or.inl ?_, Or.inl ?_⟩ <;> omega)
          · exact absurd h this
        · exact ⟨Or.inr h.1, h.2⟩
      · rintro ⟨h1, h2⟩
        rcases h1 with h1 | h1
        · rcases h2 with h2 | h2
          · refine Or.inl (Or.inl ?_)
            split <;> split <;> omega
          · have := hbs h2
            omega
        · exact Or.inr ⟨h1, h2⟩
    · simp only [if_neg hov, Range.Contains]
      have := covers_nil x
      constructor
      · rintro (h | h)
        · exact absurd h this
        · exact ⟨Or.inr h.1, h.2⟩
      · rintro ⟨h1, h2⟩
        rcases h1 with h1 | h1
        · rcases h2 with h2 | h2
          · omega
          · have := hbs h2
            omega
        · exact Or.inr ⟨h1, h2⟩

theorem separated_cons {e : Range} {l : List Range} (h : ∀ r ∈ l, e.end_ + 1 < r.begin)
    (hl : Separated l) : Separated (e :: l) := by
  cases l with
  | nil => trivial
  | cons b rest => exact ⟨h b (List.mem_cons_self _ _), hl⟩

/-- Every interval `operator and` emits is the overlap of an interval of the left operand
and an interval of the right operand that pass the test on lines 53-54. -/
theorem land_origin (A B : List Range) :
    ∀ r ∈ land A B, ∃ a ∈ A, ∃ b ∈ B, (b.begin ≤ a.end_ ∧ a.begin ≤ b.end_) ∧
      r = Range.mk (Nat.max a.begin b.begin) (Nat.min a.end_ b.end_) := by
  induction A, B using land.induct with
  | case1 B => intro r hr; simp [land] at hr
  | case2 a as => intro r hr; simp [land] at hr
  | case3 a as b bs hgt ih =>
    intro r hr
    rw [land, if_pos hgt, List.mem_append] at hr
    rcases hr with hr | hr
    · by_cases hov : b.begin ≤ a.end_ ∧ a.begin ≤ b.end_
      · rw [if_pos hov, List.mem_singleton] at hr
        exact ⟨a, List.mem_cons_self _ _, b, List.mem_cons_self _ _, hov, hr⟩
      · rw [if_neg hov] at hr; cases hr
    · obtain ⟨a', ha', b', hb', h⟩ := ih r hr
      exact ⟨a', ha', b', List.mem_cons_of_mem _ hb', h⟩
  | case4 a as b bs hgt ih =>
    intro r hr
    rw [land, if_neg hgt, List.mem_append] at hr
    rcases hr with hr | hr
    · by_cases hov : b.begin ≤ a.end_ ∧ a.begin ≤ b.end_
      · rw [if_pos hov, List.mem_singleton] at hr
        exact ⟨a, List.mem_cons_self _ _, b, List.mem_cons_self _ _, hov, hr⟩
      · rw [if_neg hov] at hr; cases hr
    · obtain ⟨a', ha', b', hb', h⟩ := ih r hr
      exact ⟨a', List.mem_cons_of_mem _ ha', b', hb', h⟩

theorem land_inDomain (w : Width) (A B : List Range) (hA : InDomain w A) (hB : InDomain w B) :
    InDomain w (land A B) := by
  intro r hr
  obtain ⟨a, ha, b, hb, -, rfl⟩ := land_origin A B r hr
  have h1 := hA a ha
  have h2 := hB b hb
  simp only [Nat.max_def, Nat.min_def]
  constructor <;> split <;> omega

theorem land_wellFormed (A B : List Range) (hA : WellFormed A) (hB : WellFormed B) :
    WellFormed (land A B) := by
  intro r hr
  obtain ⟨a, ha, b, hb, hov, rfl⟩ := land_origin A B r hr
  have h1 := hA a ha
  have h2 := hB b hb
  simp only [Nat.max_def, Nat.min_def]
  split <;> split <;> omega

theorem land_separated (A B : List Range) :
    WellFormed A → Separated A → WellFormed B → Separated B → Separated (land A B) := by
  induction A, B using land.induct with
  | case1 B => intro _ _ _ _; simp [land, Separated]
  | case2 a as => intro _ _ _ _; simp [land, Separated]
  | case3 a as b bs hgt ih =>
    intro hA sA hB sB
    have htail := ih hA sA hB.wf_tail sB.sep_tail
    rw [land, if_pos hgt]
    by_cases hov : b.begin ≤ a.end_ ∧ a.begin ≤ b.end_
    · rw [if_pos hov]
      refine separated_cons ?_ htail
      intro r hr
      obtain ⟨a', -, b', hb', -, rfl⟩ := land_origin (a :: as) bs r hr
      have := separated_lt_of_mem bs b hB sB b' hb'
      simp only [Nat.max_def, Nat.min_def]
      split <;> split <;> omega
    · rw [if_neg hov]; exact htail
  | case4 a as b bs hgt ih =>
    intro hA sA hB sB
    have htail := ih hA.wf_tail sA.sep_tail hB sB
    rw [land, if_neg hgt]
    by_cases hov : b.begin ≤ a.end_ ∧ a.begin ≤ b.end_
    · rw [if_pos hov]
      refine separated_cons ?_ htail
      intro r hr
      obtain ⟨a', ha', b', -, -, rfl⟩ := land_origin as (b :: bs) r hr
      have := separated_lt_of_mem as a hA sA a' ha'
      simp only [Nat.max_def, Nat.min_def]
      split <;> split <;> omega
    · rw [if_neg hov]; exact htail

/-! ## Claims about `operator and` -/

/-- C4: `operator and` computes the intersection as a set of values.  For canonical operands
`A` and `B`, a value lies in some interval of `A AND B` if and only if it lies in some
interval of `A` and in some interval of `B`. -/
theorem and_computes_intersection (w : Width) (A B : List Range) (hA : Canonical w A)
    (hB : Canonical w B) (x : Nat) : Covers (land A B) x ↔ Covers A x ∧ Covers B x :=
  land_covers x A B hA.2.1 hA.2.2 hB.2.1 hB.2.2

theorem and_computes_intersection_witness :
    Canonical .w16 [⟨0, 10⟩, ⟨20, 30⟩] ∧ Canonical .w16 [⟨5, 25⟩] ∧
    (Covers (land [⟨0, 10⟩, ⟨20, 30⟩] [⟨5, 25⟩]) 22 ↔
      Covers [⟨0, 10⟩, ⟨20, 30⟩] 22 ∧ Covers [⟨5, 25⟩] 22) :=
  ⟨by decide, by decide,
    and_computes_intersection .w16 [⟨0, 10⟩, ⟨20, 30⟩] [⟨5, 25⟩] (by decide) (by decide) 22⟩

/-- C5: `operator and` returns a set in canonical form.  For canonical operands `A` and `B`
every interval of `A AND B` has `begin <= end` (and bounds in the domain) and every two
consecutive intervals `a`, `b` of `A AND B` satisfy `a.end + 1 < b.begin`. -/
theorem and_canonical (w : Width) (A B : List Range) (hA : Canonical w A)
    (hB : Canonical w B) : Canonical w (land A B) :=
  ⟨land_inDomain w A B hA.1 hB.1, land_wellFormed A B hA.2.1 hB.2.1,
    land_separated A B hA.2.1 hA.2.2 hB.2.1 hB.2.2⟩

theorem and_canonical_witness :
    Canonical .w16 [⟨0, 10⟩, ⟨20, 30⟩] ∧ Canonical .w16 [⟨5, 25⟩] ∧
    Canonical .w16 (land [⟨0, 10⟩, ⟨20, 30⟩] [⟨5, 25⟩]) :=
  ⟨by decide, by decide,
    and_canonical .w16 [⟨0, 10⟩, ⟨20, 30⟩] [⟨5, 25⟩] (by decide) (by decide)⟩

/-! ## `operator!` on canonical operands -/

theorem Width.card_pos_of_width (w : Width) : 0 < w.card := by
  cases w <;> simp [Width.card, Width.bits]

theorem Width.max_add_one (w : Width) : w.max + 1 = w.card := by
  have := w.card_pos_of_width
  simp only [Width.max]
  omega

theorem incr_eq {w : Width} {x : Nat} (h : x + 1 < w.card) : incr w x = x + 1 :=
  Nat.mod_eq_of_lt h

theorem decr_eq {w : Width} {x : Nat} (h1 : 1 ≤ x) (h2 : x < w.card) : decr w x = x - 1 := by
  have h : x + w.card - 1 = (x - 1) + w.card := by omega
  rw [decr, h, Nat.add_mod_right]
  exact Nat.mod_eq_of_lt (by omega)

/-- The operator `!` on a non-empty operand is the leading gap followed by `gapsTrail`. -/
theorem lnot_cons (w : Width) (first : Range) (rest : List Range) :
    lnot w (first :: rest) =
      (if first.begin ≠ 0 then [Range.mk w.min (decr w first.begin)] else []) ++
        gapsTrail w (first :: rest) := by
  have key : ∀ (l : List Range) (a : Range),
      gaps w (a :: l) ++ (if ((a :: l).getLast (List.cons_ne_nil a l)).end_ ≠ w.max then
          [Range.mk (incr w ((a :: l).getLast (List.cons_ne_nil a l)).end_) w.max] else []) =
        gapsTrail w (a :: l) := by
    intro l
    induction l with
    | nil => intro a; simp [gaps, gapsTrail]
    | cons b l ih =>
      intro a
      have := ih b
      simp only [gaps, gapsTrail, List.cons_append, List.getLast_cons_cons]
      rw [this]
  simp only [lnot, List.append_assoc]
  rw [key rest first]

/-- On a canonical operand, the gaps and the trailing gap are a canonical sequence that
starts after the end of the first interval. -/
theorem gapsTrail_canonical (w : Width) : ∀ (rest : List Range) (a : Range),
    Canonical w (a :: rest) →
      Canonical w (gapsTrail w (a :: rest)) ∧
        ∀ r ∈ gapsTrail w (a :: rest), a.end_ + 1 ≤ r.begin := by
  intro rest
  induction rest with
  | nil =>
    intro a hc
    have ha := hc.1 a (List.mem_cons_self _ _)
    have hmax := w.max_add_one
    simp only [gapsTrail]
    split
    · rename_i hne
      have hlt : a.end_ + 1 < w.card := by omega
      rw [incr_eq hlt]
      refine ⟨⟨?_, ?_, trivial⟩, ?_⟩
      · intro r hr
        rw [List.mem_singleton] at hr
        subst hr
        constructor <;> simp only <;> omega
      · intro r hr
        rw [List.mem_singleton] at hr
        subst hr
        simp only
        omega
      · intro r hr
        rw [List.mem_singleton] at hr
        subst hr
        exact le_rfl
    · refine ⟨⟨?_, ?_, trivial⟩, ?_⟩ <;> (intro r hr; cases hr)
  | cons b rest ih =>
    intro a hc
    obtain ⟨⟨hd, hw, hs⟩, hge⟩ := ih b hc.can_tail
    have ha := hc.1 a (List.mem_cons_self _ _)
    have hb := hc.1 b (List.mem_cons_of_mem _ (List.mem_cons_self _ _))
    have hbw := hc.2.1 b (List.mem_cons_of_mem _ (List.mem_cons_self _ _))
    have hab : a.end_ + 1 < b.begin := hc.2.2.1
    simp only [gapsTrail]
    rw [incr_eq (by omega), decr_eq (by omega) hb.1]
    refine ⟨⟨?_, ?_, ?_⟩, ?_⟩
    · intro r hr
      rcases List.mem_cons.mp hr with rfl | hr
      · constructor <;> simp only <;> omega
      · exact hd r hr
    · intro r hr
      rcases List.mem_cons.mp hr with rfl | hr
      · simp only; omega
      · exact hw r hr
    · refine separated_cons ?_ hs
      intro r hr
      have := hge r hr
      simp only
      omega
    · intro r hr
      rcases List.mem_cons.mp hr with rfl | hr
      · exact le_rfl
      · have := hge r hr
        omega

/-- On a canonical operand, the gaps and the trailing gap hold the values of the domain
past the end of the first interval that lie in no later interval. -/
theorem gapsTrail_covers (w : Width) (x : Nat) : ∀ (rest : List Range) (a : Range),
    Canonical w (a :: rest) →
      (Covers (gapsTrail w (a :: rest)) x ↔ a.end_ < x ∧ x < w.card ∧ ¬ Covers rest x) := by
  intro rest
  induction rest with
  | nil =>
    intro a hc
    have ha := hc.1 a (List.mem_cons_self _ _)
    have hmax := w.max_add_one
    have hnil := covers_nil x
    simp only [gapsTrail]
    split
    · rename_i hne
      have hlt : a.end_ + 1 < w.card := by omega
      rw [incr_eq hlt, covers_cons]
      simp only [Range.Contains]
      constructor
      · rintro (h | h)
        · exact ⟨by omega, by omega, hnil⟩
        · exact absurd h hnil
      · rintro ⟨h1, h2, -⟩
        exact Or.inl (by omega)
    · rename_i hne
      have : a.end_ = w.max := not_not.mp hne
      constructor
      · intro h; exact absurd h hnil
      · rintro ⟨h1, h2, -⟩; omega
  | cons b rest ih =>
    intro a hc
    have ha := hc.1 a (List.mem_cons_self _ _)
    have hb := hc.1 b (List.mem_cons_of_mem _ (List.mem_cons_self _ _))
    have hbw := hc.2.1 b (List.mem_cons_of_mem _ (List.mem_cons_self _ _))
    have hab : a.end_ + 1 < b.begin := hc.2.2.1
    have hrest : ∀ c ∈ rest, b.end_ + 1 < c.begin :=
      separated_lt_of_mem rest b hc.can_tail.2.1 hc.can_tail.2.2
    simp only [gapsTrail]
    rw [incr_eq (by omega), decr_eq (by omega) hb.1, covers_cons, ih b hc.can_tail, covers_cons]
    simp only [Range.Contains]
    constructor
    · rintro (h | ⟨h1, h2, h3⟩)
      · refine ⟨by omega, by omega, ?_⟩
        rintro (h' | ⟨c, hc', hcx⟩)
        · omega
        · have := hrest c hc'
          have := hcx.1
          omega
      · refine ⟨by omega, h2, ?_⟩
        rintro (h' | h')
        · omega
        · exact h3 h'
    · rintro ⟨h1, h2, h3⟩
      by_cases hx : x < b.begin
      · exact Or.inl (by omega)
      · refine Or.inr ⟨?_, h2, fun h' => h3 (Or.inr h')⟩
        by_contra hcon
        exact h3 (Or.inl (by omega))

theorem incrChecked_eq {w : Width} {x : Nat} (h : x + 1 < w.card) :
    incrChecked w x = some (incr w x) := by
  rw [incrChecked, if_pos h, incr_eq h]

theorem decrChecked_eq {w : Width} {x : Nat} (h1 : 1 ≤ x) (h2 : x < w.card) :
    decrChecked w x = some (decr w x) := by
  rw [decrChecked, if_pos h1, decr_eq h1 h2]

theorem gapsChecked_eq (w : Width) : ∀ (rest : List Range) (a : Range),
    Canonical w (a :: rest) → gapsChecked w (a :: rest) = some (gaps w (a :: rest)) := by
  intro rest
  induction rest with
  | nil => intro a _; rfl
  | cons b rest ih =>
    intro a hc
    have hb := hc.1 b (List.mem_cons_of_mem _ (List.mem_cons_self _ _))
    have hab : a.end_ + 1 < b.begin := hc.2.2.1
    simp only [gapsChecked, gaps]
    rw [incrChecked_eq (by omega), decrChecked_eq (by omega) hb.1, ih b hc.can_tail]
    rfl

theorem lnotChecked_eq (w : Width) (S : List Range) (hS : Canonical w S) :
    lnotChecked w S = some (lnot w S) := by
  cases S with
  | nil => rfl
  | cons first rest =>
    have hf := hS.1 first (List.mem_cons_self _ _)
    have hback := hS.1 _ (List.getLast_mem (List.cons_ne_nil first rest))
    have hmax := w.max_add_one
    simp only [lnotChecked, lnot]
    rw [gapsChecked_eq w rest first hS]
    by_cases h0 : first.begin = 0
    · by_cases hm : ((first :: rest).getLast (List.cons_ne_nil first rest)).end_ = w.max
      · simp [h0, hm]
      · rw [incrChecked_eq (by omega)]
        simp [h0, hm]
    · by_cases hm : ((first :: rest).getLast (List.cons_ne_nil first rest)).end_ = w.max
      · rw [decrChecked_eq (by omega) hf.1]
        simp [h0, hm]
      · rw [decrChecked_eq (by omega) hf.1, incrChecked_eq (by omega)]
        simp [h0, hm]

theorem lnot_canonical (w : Width) (S : List Range) (hS : Canonical w S) :
    Canonical w (lnot w S) := by
  cases S with
  | nil =>
    have hmax := w.max_add_one
    refine ⟨?_, ?_, trivial⟩
    · intro r hr
      simp only [lnot, List.mem_singleton] at hr
      subst hr
      simp only [Width.min]
      omega
    · intro r hr
      simp only [lnot, List.mem_singleton] at hr
      subst hr
      simp only [Width.min]
      omega
  | cons first rest =>
    obtain ⟨⟨hd, hw, hs⟩, hge⟩ := gapsTrail_canonical w rest first hS
    have hf := hS.1 first (List.mem_cons_self _ _)
    have hfw := hS.2.1 first (List.mem_cons_self _ _)
    rw [lnot_cons]
    by_cases h0 : first.begin = 0
    · simp only [h0, ne_eq, not_true_eq_false, if_false, List.nil_append]
      exact ⟨hd, hw, hs⟩
    · rw [if_pos h0, decr_eq (by omega) hf.1, List.singleton_append]
      refine ⟨?_, ?_, ?_⟩
      · intro r hr
        rcases List.mem_cons.mp hr with rfl | hr
        · simp only [Width.min]
          have := w.card_pos_of_width
          omega
        · exact hd r hr
      · intro r hr
        rcases List.mem_cons.mp hr with rfl | hr
        · simp only [Width.min]
          omega
        · exact hw r hr
      · refine separated_cons ?_ hs
        intro r hr
        have := hge r hr
        simp only
        omega

theorem lnot_covers (w : Width) (S : List Range) (hS : Canonical w S) (x : Nat)
    (hx : x < w.card) : Covers (lnot w S) x ↔ ¬ Covers S x := by
  cases S with
  | nil =>
    have hmax := w.max_add_one
    have hnil := covers_nil x
    simp only [lnot, covers_cons, Range.Contains, Width.min]
    constructor
    · intro _; exact hnil
    · intro _; exact Or.inl (by omega)
  | cons first rest =>
    have hf := hS.1 first (List.mem_cons_self _ _)
    have hfw := hS.2.1 first (List.mem_cons_self _ _)
    have hrest : ∀ c ∈ rest, first.end_ + 1 < c.begin :=
      separated_lt_of_mem rest first hS.2.1 hS.2.2
    have hnil := covers_nil x
    rw [lnot_cons, covers_append, gapsTrail_covers w x rest first hS, covers_cons]
    by_cases h0 : first.begin = 0
    · simp only [h0, ne_eq, not_true_eq_false, if_false, Range.Contains]
      constructor
      · rintro (h | ⟨h1, -, h3⟩)
        · exact absurd h hnil
        · rintro (h' | h')
          · omega
          · exact h3 h'
      · intro h
        refine Or.inr ⟨?_, hx, fun h' => h (Or.inr h')⟩
        by_contra hcon
        exact h (Or.inl (by omega))
    · rw [if_pos h0, decr_eq (by omega) hf.1, covers_cons]
      simp only [Range.Contains, Width.min]
      constructor
      · rintro ((h | h) | ⟨h1, -, h3⟩)
        · rintro (h' | ⟨c, hc, hcx⟩)
          · omega
          · have := hrest c hc
            have := hcx.1
            omega
        · exact absurd h hnil
        · rintro (h' | h')
          · omega
          · exact h3 h'
      · intro h
        by_cases hlt : x < first.begin
        · exact Or.inl (Or.inl (by omega))
        · refine Or.inr ⟨?_, hx, fun h' => h (Or.inr h')⟩
          by_contra hcon
          exact h (Or.inl (by omega))

/-! ## Claims about `operator!` -/

/-- C6: `operator!` returns the canonical form of the complement in `[T::MIN, T::MAX]`.
For every canonical set `S` (the empty set and `[(MIN,MAX)]` included), `NOT S` is
canonical; a value of the domain lies in some interval of `NOT S` if and only if it lies in
no interval of `S`; the run with checked `begin - 1` and `end + 1` succeeds with the same
result, so none of them wraps around; and `NOT [] = [(MIN,MAX)]`, `NOT [(MIN,MAX)] = []`. -/
theorem not_complement (w : Width) (S : List Range) (hS : Canonical w S) :
    Canonical w (lnot w S) ∧
    (∀ x, x < w.card → (Covers (lnot w S) x ↔ ¬ Covers S x)) ∧
    lnotChecked w S = some (lnot w S) ∧
    lnot w [] = [⟨w.min, w.max⟩] ∧ lnot w [⟨w.min, w.max⟩] = [] :=
  ⟨lnot_canonical w S hS, fun x hx => lnot_covers w S hS x hx, lnotChecked_eq w S hS, rfl,
    by simp [lnot, gaps, Width.min]⟩

theorem not_complement_witness :
    Canonical .w16 [⟨5, 7⟩, ⟨9, 65535⟩] ∧
    (Canonical .w16 (lnot .w16 [⟨5, 7⟩, ⟨9, 65535⟩]) ∧
    (∀ x, x < Width.w16.card →
      (Covers (lnot .w16 [⟨5, 7⟩, ⟨9, 65535⟩]) x ↔ ¬ Covers [⟨5, 7⟩, ⟨9, 65535⟩] x)) ∧
    lnotChecked .w16 [⟨5, 7⟩, ⟨9, 65535⟩] = some (lnot .w16 [⟨5, 7⟩, ⟨9, 65535⟩]) ∧
    lnot .w16 [] = [⟨Width.w16.min, Width.w16.max⟩] ∧
    lnot .w16 [⟨Width.w16.min, Width.w16.max⟩] = []) :=
  ⟨by decide, not_complement .w16 [⟨5, 7⟩, ⟨9, 65535⟩] (by decide)⟩

theorem incr_pred {w : Width} {x : Nat} (h1 : 1 ≤ x) (h2 : x < w.card) :
    incr w (x - 1) = x := by
  rw [incr_eq (by omega)]; omega

theorem decr_succ {w : Width} {x : Nat} (h : x + 1 < w.card) : decr w (x + 1) = x := by
  rw [decr_eq (by omega) h]; omega

/-- Taking the gaps of the gaps gives the intervals back: the step behind the involution. -/
theorem gapsTrail_gapsTrail (w : Width) : ∀ (rest : List Range) (r : Range) (p : Nat),
    Canonical w (r :: rest) → 1 ≤ r.begin →
      gapsTrail w (Range.mk p (r.begin - 1) :: gapsTrail w (r :: rest)) = r :: rest := by
  intro rest
  induction rest with
  | nil =>
    intro r p hc h1
    have hr := hc.1 r (List.mem_cons_self _ _)
    have hrw := hc.2.1 r (List.mem_cons_self _ _)
    have hmax := w.max_add_one
    obtain ⟨rb, re⟩ := r
    simp only at hr hrw h1
    by_cases hm : re = w.max
    · have hne : rb - 1 ≠ w.max := by omega
      simp only [gapsTrail, hm, ne_eq, not_true_eq_false, if_false]
      rw [if_pos hne, incr_pred h1 hr.1]
    · have hlt : re + 1 < w.card := by omega
      simp only [gapsTrail, ne_eq, hm, not_false_eq_true, if_true, not_true_eq_false, if_false]
      rw [incr_pred h1 hr.1, incr_eq hlt, decr_succ hlt]
  | cons n rest ih =>
    intro r p hc h1
    have hr := hc.1 r (List.mem_cons_self _ _)
    have hn := hc.1 n (List.mem_cons_of_mem _ (List.mem_cons_self _ _))
    have hrn : r.end_ + 1 < n.begin := hc.2.2.1
    obtain ⟨rb, re⟩ := r
    simp only at hr h1 hrn
    have hlt : re + 1 < w.card := by omega
    have hstep := ih n (re + 1) hc.can_tail (by omega)
    simp only [gapsTrail]
    rw [incr_pred h1 hr.1, incr_eq hlt, decr_succ hlt, decr_eq (by omega) hn.1, hstep]

/-- C7: complement is an involution.  For every canonical set `S`, `NOT (NOT S)` is the same
interval sequence as `S`. -/
theorem not_involution (w : Width) (S : List Range) (hS : Canonical w S) :
    lnot w (lnot w S) = S := by
  cases S with
  | nil => simp [lnot, gaps, Width.min]
  | cons r rest =>
    have hr := hS.1 r (List.mem_cons_self _ _)
    have hrw := hS.2.1 r (List.mem_cons_self _ _)
    have hmax := w.max_add_one
    rw [lnot_cons]
    by_cases h0 : r.begin = 0
    · simp only [h0, ne_eq, not_true_eq_false, if_false, List.nil_append]
      cases rest with
      | nil =>
        obtain ⟨rb, re⟩ := r
        simp only at hr hrw h0
        subst h0
        by_cases hm : re = w.max
        · simp [gapsTrail, hm, lnot, Width.min]
        · have hlt : re + 1 < w.card := by omega
          simp only [gapsTrail, ne_eq, hm, not_false_eq_true, if_true]
          rw [lnot_cons, incr_eq hlt]
          simp only [gapsTrail, ne_eq, not_true_eq_false, if_false, List.append_nil]
          rw [if_pos (by omega), decr_succ hlt]
          rfl
      | cons n rest =>
        have hn := hS.1 n (List.mem_cons_of_mem _ (List.mem_cons_self _ _))
        have hrn : r.end_ + 1 < n.begin := hS.2.2.1
        obtain ⟨rb, re⟩ := r
        simp only at hr hrw h0 hrn
        subst h0
        have hlt : re + 1 < w.card := by omega
        have hstep := gapsTrail_gapsTrail w rest n (re + 1) hS.can_tail (by omega)
        simp only [gapsTrail]
        rw [lnot_cons, incr_eq hlt, decr_eq (by omega) hn.1]
        simp only
        rw [if_pos (by omega), decr_succ hlt, hstep]
        rfl
    · have h1 : 1 ≤ r.begin := by omega
      rw [if_pos h0, decr_eq h1 hr.1, List.singleton_append, lnot_cons]
      have hstep := gapsTrail_gapsTrail w rest r w.min hS h1
      simp only [Width.min] at hstep ⊢
      simp only [ne_eq, not_true_eq_false, if_false, List.nil_append]
      exact hstep

theorem not_involution_witness :
    Canonical .w32 [⟨0, 7⟩, ⟨9, 100⟩, ⟨4000000000, 4294967295⟩] ∧
    lnot .w32 (lnot .w32 [⟨0, 7⟩, ⟨9, 100⟩, ⟨4000000000, 4294967295⟩]) =
      [⟨0, 7⟩, ⟨9, 100⟩, ⟨4000000000, 4294967295⟩] :=
  ⟨by decide, not_involution .w32 [⟨0, 7⟩, ⟨9, 100⟩, ⟨4000000000, 4294967295⟩] (by decide)⟩

/-! ## `operator or` on canonical operands -/

theorem canonical_begin_lt {w : Width} {a : Range} {l : List Range}
    (h : Canonical w (a :: l)) : ∀ c ∈ l, a.begin < c.begin := by
  intro c hc
  have := separated_lt_of_mem l a h.2.1 h.2.2 c hc
  have := h.2.1 a (List.mem_cons_self _ _)
  omega

/-- Distinct intervals of a canonical sequence have distinct `begin`. -/
theorem canonical_begin_inj {w : Width} : ∀ {S : List Range}, Canonical w S →
    ∀ a ∈ S, ∀ b ∈ S, a.begin = b.begin → a = b := by
  intro S
  induction S with
  | nil => intro _ a ha; cases ha
  | cons r l ih =>
    intro hc a ha b hb hab
    have hlt := canonical_begin_lt hc
    rcases List.mem_cons.mp ha with ha1 | ha1 <;> rcases List.mem_cons.mp hb with hb1 | hb1
    · rw [ha1, hb1]
    · have := hlt b hb1; rw [ha1] at hab; omega
    · have := hlt a ha1; rw [hb1] at hab; omega
    · exact ih hc.can_tail a ha1 b hb1 hab

theorem canonical_sorted {w : Width} : ∀ {S : List Range}, Canonical w S →
    S.Sorted BeginLEStrict := by
  intro S
  induction S with
  | nil => intro _; exact List.sorted_nil
  | cons r l ih =>
    intro hc
    refine List.sorted_cons.mpr ⟨?_, ih hc.can_tail⟩
    intro c hcl
    have := canonical_begin_lt hc c hcl
    exact ⟨by omega, fun h => by omega⟩

theorem twice_sorted {w : Width} : ∀ {S : List Range}, Canonical w S →
    (twice S).Sorted BeginLEStrict := by
  intro S
  induction S with
  | nil => intro _; exact List.sorted_nil
  | cons r l ih =>
    intro hc
    have hmem : ∀ c ∈ twice l, BeginLEStrict r c := by
      intro c hcl
      have hcl2 : c ∈ l := by
        clear ih hc
        induction l with
        | nil => cases hcl
        | cons d l ihl =>
          simp only [twice, List.mem_cons] at hcl
          rcases hcl with rfl | rfl | h
          · exact List.mem_cons_self _ _
          · exact List.mem_cons_self _ _
          · exact List.mem_cons_of_mem _ (ihl h)
      have := canonical_begin_lt hc c hcl2
      exact ⟨by omega, fun h => by omega⟩
    refine List.sorted_cons.mpr ⟨?_, List.sorted_cons.mpr ⟨hmem, ih hc.can_tail⟩⟩
    intro c hcl
    rcases List.mem_cons.mp hcl with rfl | hcl
    · exact ⟨le_rfl, fun _ => rfl⟩
    · exact hmem c hcl

theorem twice_perm : ∀ S : List Range, (twice S).Perm (S ++ S) := by
  intro S
  induction S with
  | nil => exact List.Perm.refl _
  | cons r l ih =>
    simp only [twice, List.cons_append]
    exact List.Perm.cons r ((List.Perm.cons r ih).trans List.perm_middle.symm)

/-- A working sequence in which intervals of equal `begin` are equal has one sort outcome. -/
theorem sortOutcome_unique {input sorted target : List Range}
    (hinj : ∀ a ∈ input, ∀ b ∈ input, a.begin = b.begin → a = b)
    (hperm : target.Perm input) (htarget : target.Sorted BeginLEStrict)
    (hs : SortOutcome input sorted) : sorted = target := by
  obtain ⟨hp, hsorted⟩ := hs
  have hstrict : sorted.Sorted BeginLEStrict := by
    refine List.Pairwise.imp_of_mem ?_ hsorted
    intro a b ha hb hab
    exact ⟨hab, hinj a (hp.mem_iff.mp ha) b (hp.mem_iff.mp hb)⟩
  exact List.eq_of_perm_of_sorted (hp.trans hperm.symm) hstrict htarget

/-- On a canonical working sequence the sweep appends every interval unchanged. -/
theorem sweep_canonical (w : Width) : ∀ (rest : List Range) (a : Range),
    Canonical w (a :: rest) → sweep w a rest = a :: rest := by
  intro rest
  induction rest with
  | nil => intro a _; rfl
  | cons b rest ih =>
    intro a hc
    have hab : a.end_ + 1 < b.begin := hc.2.2.1
    have hle := succCmp_le w a.end_
    have htest : mergeTest w a b = false := by
      simp only [mergeTest, Bool.and_eq_false_iff, decide_eq_false_iff_not]
      exact Or.inl (by omega)
    simp only [sweep, htest, Bool.false_eq_true, if_false]
    rw [ih b hc.can_tail]

/-- The empty set is a right identity of `operator or` on non-empty canonical sets: for
every outcome of the sort, `S OR [] = S`. -/
theorem or_empty_right (w : Width) (S : List Range) (hS : Canonical w S) (hne : S ≠ []) :
    (∀ sorted, SortOutcome (S ++ []) sorted → orSorted w sorted = some S) ∧
    lor w S [] = some S := by
  have key : ∀ sorted, SortOutcome (S ++ []) sorted → orSorted w sorted = some S := by
    intro sorted hs
    rw [List.append_nil] at hs
    have h := sortOutcome_unique (canonical_begin_inj hS) (List.Perm.refl S)
      (canonical_sorted hS) hs
    subst h
    cases sorted with
    | nil => exact absurd rfl hne
    | cons a rest => simp only [orSorted]; rw [sweep_canonical w rest a hS]
  exact ⟨key, key _ (sortOutcome_sortByBegin (S ++ []))⟩

theorem mergeTest_self {w : Width} {r : Range} (hd : r.end_ < w.card)
    (hw : r.begin ≤ r.end_) (h : SelfMerges w r) : mergeTest w r r = true := by
  have hmax := w.max_add_one
  simp only [mergeTest, Bool.and_eq_true, decide_eq_true_eq]
  refine ⟨?_, le_rfl⟩
  rcases h with rfl | h | h
  · simp only [succCmp]; omega
  · have hlt : r.end_ + 1 < w.card := by omega
    cases w
    · simp only [succCmp]; omega
    · simp only [succCmp]
      rw [Nat.mod_eq_of_lt (by simpa [Width.card, Width.bits] using hlt)]
      omega
    · simp only [succCmp]
      rw [Nat.mod_eq_of_lt (by simpa [Width.card, Width.bits] using hlt)]
      omega
  · rw [h]; exact Nat.zero_le _

theorem sweep_self (w : Width) (r : Range) (l : List Range) (h : mergeTest w r r = true) :
    sweep w r (r :: l) = sweep w r l := by
  have hr : Range.mk r.begin (r.end_.max r.end_) = r := by
    cases r; simp
  simp only [sweep, h, if_true]
  rw [hr]

/-- The sweep over a canonical sequence written twice gives the sequence back when every
interval passes the test of line 84 against itself. -/
theorem sweep_twice (w : Width) : ∀ (rest : List Range) (a : Range),
    Canonical w (a :: rest) → (∀ r ∈ a :: rest, SelfMerges w r) →
      sweep w a (a :: twice rest) = a :: rest := by
  intro rest
  induction rest with
  | nil =>
    intro a hc hself
    have ha := hc.1 a (List.mem_cons_self _ _)
    have haw := hc.2.1 a (List.mem_cons_self _ _)
    have ht := mergeTest_self ha.2 haw (hself a (List.mem_cons_self _ _))
    rw [sweep_self w a _ ht]
    rfl
  | cons b rest ih =>
    intro a hc hself
    have ha := hc.1 a (List.mem_cons_self _ _)
    have haw := hc.2.1 a (List.mem_cons_self _ _)
    have ht := mergeTest_self ha.2 haw (hself a (List.mem_cons_self _ _))
    have hab : a.end_ + 1 < b.begin := hc.2.2.1
    have hle := succCmp_le w a.end_
    have htest : mergeTest w a b = false := by
      simp only [mergeTest, Bool.and_eq_false_iff, decide_eq_false_iff_not]
      exact Or.inl (by omega)
    have hstep := ih b hc.can_tail (fun r hr => hself r (List.mem_cons_of_mem _ hr))
    rw [sweep_self w a _ ht]
    have hunfold : sweep w a (twice (b :: rest)) = a :: sweep w b (b :: twice rest) := by
      simp only [twice]
      rw [sweep]
      simp only [htest, Bool.false_eq_true, if_false]
    rw [hunfold, hstep]

/-- `operator or` is idempotent on a non-empty canonical set whose intervals all pass the
test of line 84 against themselves (always so on the 16-bit domain): for every outcome of
the sort, `S OR S = S`. -/
theorem or_self_of_selfMerges (w : Width) (S : List Range) (hS : Canonical w S)
    (hne : S ≠ []) (hself : ∀ r ∈ S, SelfMerges w r) :
    (∀ sorted, SortOutcome (S ++ S) sorted → orSorted w sorted = some S) ∧
    lor w S S = some S := by
  have hinj : ∀ a ∈ S ++ S, ∀ b ∈ S ++ S, a.begin = b.begin → a = b := by
    intro a ha b hb
    exact canonical_begin_inj hS a (by simpa using ha) b (by simpa using hb)
  have key : ∀ sorted, SortOutcome (S ++ S) sorted → orSorted w sorted = some S := by
    intro sorted hs
    have h := sortOutcome_unique hinj (twice_perm S) (twice_sorted hS) hs
    subst h
    cases S with
    | nil => exact absurd rfl hne
    | cons a rest => simp only [twice, orSorted]; rw [sweep_twice w rest a hS hself]
  exact ⟨key, key _ (sortOutcome_sortByBegin (S ++ S))⟩

theorem or_self_of_selfMerges_witness :
    Canonical .w16 [⟨0, 7⟩, ⟨9, 65535⟩] ∧ ([⟨0, 7⟩, ⟨9, 65535⟩] : List Range) ≠ [] ∧
    lor .w16 [⟨0, 7⟩, ⟨9, 65535⟩] [⟨0, 7⟩, ⟨9, 65535⟩] = some [⟨0, 7⟩, ⟨9, 65535⟩] :=
  ⟨by decide, by decide,
    (or_self_of_selfMerges .w16 [⟨0, 7⟩, ⟨9, 65535⟩] (by decide) (by decide)
      (fun _ _ => Or.inl rfl)).2⟩

/-! ## Claims about `operator or` -/

/-- C1 (evaluation at the failing inputs): `operator or` applied to the canonical 16-bit
sets `[(0,10)]` and `[(2,5)]` returns `[(0,10),(2,5)]` for every outcome of the sort, and
applied to `[(0,1500)]` and `[(0,1000)]` it returns `[(0,1500),(0,1000)]` when the sort
keeps the concatenation order; neither result is in canonical form, because an interval
that lies inside the current run fails `ans.back().end <= cur.end` and is appended. -/
theorem or_result_not_canonical :
    Canonical .w16 [⟨0, 10⟩] ∧ Canonical .w16 [⟨2, 5⟩] ∧
    (∀ sorted, SortOutcome ([⟨0, 10⟩] ++ [⟨2, 5⟩]) sorted →
      orSorted .w16 sorted = some [⟨0, 10⟩, ⟨2, 5⟩]) ∧
    ¬ Canonical .w16 [⟨0, 10⟩, ⟨2, 5⟩] ∧
    Canonical .w16 [⟨0, 1500⟩] ∧ Canonical .w16 [⟨0, 1000⟩] ∧
    SortOutcome ([⟨0, 1500⟩] ++ [⟨0, 1000⟩]) [⟨0, 1500⟩, ⟨0, 1000⟩] ∧
    orSorted .w16 [⟨0, 1500⟩, ⟨0, 1000⟩] = some [⟨0, 1500⟩, ⟨0, 1000⟩] ∧
    lor .w16 [⟨0, 1500⟩] [⟨0, 1000⟩] = some [⟨0, 1500⟩, ⟨0, 1000⟩] ∧
    ¬ Canonical .w16 [⟨0, 1500⟩, ⟨0, 1000⟩] := by
  refine ⟨by decide, by decide, ?_, by decide, by decide, by decide, ?_, by decide, by decide,
    by decide⟩
  · intro sorted hs
    have h : sorted = [⟨0, 10⟩, ⟨2, 5⟩] :=
      sortOutcome_pair (a := ⟨0, 10⟩) (b := ⟨2, 5⟩) (by decide) hs
    subst h
    decide
  · exact ⟨List.Perm.refl _, by decide⟩

/-- C2 (evaluation of the reference scenario, 16-bit domain, `A = [(0,1500)]`,
`B = [(0,1000)]`): `A AND B = [(0,1000)]`, `A SUB B = [(1001,1500)]`, `B SUB A = []` and
`A XOR B = [(1001,1500)]`, but `A OR B` is `[(0,1500),(0,1000)]` when the sort keeps the
two intervals of equal `begin` in concatenation order, and `[(0,1500)]` only for the other
order. -/
theorem reference_scenario :
    land [⟨0, 1500⟩] [⟨0, 1000⟩] = [⟨0, 1000⟩] ∧
    lsub .w16 [⟨0, 1500⟩] [⟨0, 1000⟩] = [⟨1001, 1500⟩] ∧
    lsub .w16 [⟨0, 1000⟩] [⟨0, 1500⟩] = [] ∧
    lxor .w16 [⟨0, 1500⟩] [⟨0, 1000⟩] = some [⟨1001, 1500⟩] ∧
    lor .w16 [⟨0, 1500⟩] [⟨0, 1000⟩] = some [⟨0, 1500⟩, ⟨0, 1000⟩] ∧
    lor .w16 [⟨0, 1500⟩] [⟨0, 1000⟩] ≠ some [⟨0, 1500⟩] ∧
    (∀ sorted, SortOutcome ([⟨0, 1500⟩] ++ [⟨0, 1000⟩]) sorted →
      (sorted = [⟨0, 1500⟩, ⟨0, 1000⟩] ∧
        orSorted .w16 sorted = some [⟨0, 1500⟩, ⟨0, 1000⟩]) ∨
      (sorted = [⟨0, 1000⟩, ⟨0, 1500⟩] ∧ orSorted .w16 sorted = some [⟨0, 1500⟩])) := by
  have hand : land [⟨0, 1500⟩] [⟨0, 1000⟩] = [⟨0, 1000⟩] := by
    simp [land]
  have hsub1 : lsub .w16 [⟨0, 1500⟩] [⟨0, 1000⟩] = [⟨1001, 1500⟩] := by
    simp [lsub, lnot, gaps, incr, Width.max, Width.min, Width.card, Width.bits, land]
  have hsub2 : lsub .w16 [⟨0, 1000⟩] [⟨0, 1500⟩] = [] := by
    simp [lsub, lnot, gaps, incr, Width.max, Width.min, Width.card, Width.bits, land]
  refine ⟨hand, hsub1, hsub2, ?_, by decide, by decide, ?_⟩
  · rw [lxor, hsub1, hsub2]; decide
  · intro sorted hs
    obtain ⟨hperm, -⟩ := hs
    have hlen : sorted.length = 2 := by simpa using hperm.length_eq
    obtain ⟨x, y, rfl⟩ := List.length_eq_two.mp hlen
    have hx : x = ⟨0, 1500⟩ ∨ x = ⟨0, 1000⟩ := by
      simpa using hperm.mem_iff.mp (List.mem_cons_self x [y])
    have hy : y = ⟨0, 1500⟩ ∨ y = ⟨0, 1000⟩ := by
      simpa using hperm.mem_iff.mp (List.mem_cons_of_mem x (List.mem_singleton_self y))
    have ha : (⟨0, 1500⟩ : Range) = x ∨ (⟨0, 1500⟩ : Range) = y := by
      simpa using hperm.mem_iff.mpr (List.mem_cons_self (⟨0, 1500⟩ : Range) [⟨0, 1000⟩])
    have hb : (⟨0, 1000⟩ : Range) = x ∨ (⟨0, 1000⟩ : Range) = y := by
      simpa using hperm.mem_iff.mpr
        (List.mem_cons_of_mem (⟨0, 1500⟩ : Range) (List.mem_singleton_self (⟨0, 1000⟩ : Range)))
    rcases hx with rfl | rfl <;> rcases hy with rfl | rfl
    · exact absurd hb (by decide)
    · exact Or.inl ⟨rfl, by decide⟩
    · exact Or.inr ⟨rfl, by decide⟩
    · exact absurd ha (by decide)

/-- C3: `operator or` computes the union as a set of values.  For operands that are not
both empty, on each of the three widths and for every outcome of the sort (in particular
the one that keeps the concatenation order), the operator returns a sequence, and a value
lies in some interval of it if and only if it lies in some interval of `A` or in some
interval of `B`.  Neither `begin <= end` nor canonical form of the operands is needed. -/
theorem or_computes_union (w : Width) (A B : List Range) (hne : A ≠ [] ∨ B ≠ []) :
    (∀ sorted, SortOutcome (A ++ B) sorted →
      ∃ res, orSorted w sorted = some res ∧
        ∀ x, Covers res x ↔ Covers A x ∨ Covers B x) ∧
    ∃ res, lor w A B = some res ∧ ∀ x, Covers res x ↔ Covers A x ∨ Covers B x := by
  have hne2 : A ++ B ≠ [] := by
    rcases hne with h | h <;> simp [h]
  have key : ∀ sorted, SortOutcome (A ++ B) sorted →
      ∃ res, orSorted w sorted = some res ∧
        ∀ x, Covers res x ↔ Covers A x ∨ Covers B x := by
    intro sorted hs
    obtain ⟨res, hres, hcov⟩ := orSorted_covers w (A ++ B) sorted hne2 hs
    exact ⟨res, hres, fun x => by rw [hcov x, covers_append]⟩
  exact ⟨key, key _ (sortOutcome_sortByBegin (A ++ B))⟩

theorem or_computes_union_witness :
    (([⟨0, 1500⟩] : List Range) ≠ [] ∨ ([⟨0, 1000⟩] : List Range) ≠ []) ∧
    ((∀ sorted, SortOutcome ([⟨0, 1500⟩] ++ [⟨0, 1000⟩]) sorted →
      ∃ res, orSorted .w32 sorted = some res ∧
        ∀ x, Covers res x ↔ Covers [⟨0, 1500⟩] x ∨ Covers [⟨0, 1000⟩] x) ∧
    ∃ res, lor .w32 [⟨0, 1500⟩] [⟨0, 1000⟩] = some res ∧
      ∀ x, Covers res x ↔ Covers [⟨0, 1500⟩] x ∨ Covers [⟨0, 1000⟩] x) :=
  ⟨Or.inl (by decide), or_computes_union .w32 [⟨0, 1500⟩] [⟨0, 1000⟩] (Or.inl (by decide))⟩

/-- The sort has one possible outcome on two copies of one interval. -/
theorem sortOutcome_twice {r : Range} {sorted : List Range}
    (hs : SortOutcome [r, r] sorted) : sorted = [r, r] := by
  obtain ⟨hperm, -⟩ := hs
  have hlen : sorted.length = 2 := by simpa using hperm.length_eq
  obtain ⟨x, y, rfl⟩ := List.length_eq_two.mp hlen
  have hx : x = r := by simpa using hperm.mem_iff.mp (List.mem_cons_self x [y])
  have hy : y = r := by
    simpa using hperm.mem_iff.mp (List.mem_cons_of_mem x (List.mem_singleton_self y))
  rw [hx, hy]

/-- C8 (evaluation at the failing inputs): De Morgan fails on the 16-bit domain.  For the
canonical sets `A = [(0,10)]`, `B = [(2,5)]` every outcome of the sort gives
`A OR B = [(0,10),(2,5)]` and `NOT (A OR B) = [(11,1),(6,65535)]`, while
`NOT A AND NOT B = [(11,65535)]`.  For `A = [(0,1500)]`, `B = [(0,1000)]` with the sort
keeping the concatenation order, `NOT (A OR B) = [(1501,65535),(1001,65535)]`, while
`NOT A AND NOT B = [(1501,65535)]`. -/
theorem de_morgan_fails :
    Canonical .w16 [⟨0, 10⟩] ∧ Canonical .w16 [⟨2, 5⟩] ∧
    (∀ sorted, SortOutcome ([⟨0, 10⟩] ++ [⟨2, 5⟩]) sorted →
      (orSorted .w16 sorted).map (lnot .w16) = some [⟨11, 1⟩, ⟨6, 65535⟩]) ∧
    land (lnot .w16 [⟨0, 10⟩]) (lnot .w16 [⟨2, 5⟩]) = [⟨11, 65535⟩] ∧
    (lor .w16 [⟨0, 1500⟩] [⟨0, 1000⟩]).map (lnot .w16) =
      some [⟨1501, 65535⟩, ⟨1001, 65535⟩] ∧
    land (lnot .w16 [⟨0, 1500⟩]) (lnot .w16 [⟨0, 1000⟩]) = [⟨1501, 65535⟩] := by
  have h1 : lnot .w16 [⟨0, 10⟩] = [⟨11, 65535⟩] := by decide
  have h2 : lnot .w16 [⟨2, 5⟩] = [⟨0, 1⟩, ⟨6, 65535⟩] := by decide
  have h3 : lnot .w16 [⟨0, 1500⟩] = [⟨1501, 65535⟩] := by decide
  have h4 : lnot .w16 [⟨0, 1000⟩] = [⟨1001, 65535⟩] := by decide
  refine ⟨by decide, by decide, ?_, ?_, by decide, ?_⟩
  · intro sorted hs
    have h : sorted = [⟨0, 10⟩, ⟨2, 5⟩] :=
      sortOutcome_pair (a := ⟨0, 10⟩) (b := ⟨2, 5⟩) (by decide) hs
    subst h
    decide
  · rw [h1, h2]; simp [land]
  · rw [h3, h4]; simp [land]

/-- C9 (evaluation at the failing input): on every width, `operator or` applied to two empty
sets has an empty working sequence, whose only sort outcome is the empty sequence, and
line 82 reads `all_ranges.front()` of it: no result is defined. -/
theorem or_of_empty_sets_undefined (w : Width) :
    lor w [] [] = none ∧
    ∀ sorted, SortOutcome ([] ++ []) sorted → orSorted w sorted = none := by
  refine ⟨rfl, ?_⟩
  intro sorted hs
  have h : sorted = [] := List.Perm.eq_nil hs.1
  subst h
  rfl

/-- C10 (evaluation at the failing inputs): on the 64-bit and the 32-bit domain the
canonical set `S = [(5, T::MAX)]` has `S OR S = [(5,MAX),(5,MAX)]` for every outcome of the
sort, because `ans.back().end + 1` wraps to `0` on line 84; on the 16-bit domain, where
the sum is computed in `int`, `S OR S = [(5,65535)]`. -/
theorem or_self_duplicates_at_max :
    Canonical .w64 [⟨5, 18446744073709551615⟩] ∧
    Width.w64.max = 18446744073709551615 ∧
    (∀ sorted,
      SortOutcome ([⟨5, 18446744073709551615⟩] ++ [⟨5, 18446744073709551615⟩]) sorted →
      orSorted .w64 sorted =
        some [⟨5, 18446744073709551615⟩, ⟨5, 18446744073709551615⟩]) ∧
    lor .w64 [⟨5, 18446744073709551615⟩] [⟨5, 18446744073709551615⟩] =
      some [⟨5, 18446744073709551615⟩, ⟨5, 18446744073709551615⟩] ∧
    Canonical .w32 [⟨5, 4294967295⟩] ∧
    Width.w32.max = 4294967295 ∧
    lor .w32 [⟨5, 4294967295⟩] [⟨5, 4294967295⟩] =
      some [⟨5, 4294967295⟩, ⟨5, 4294967295⟩] ∧
    lor .w16 [⟨5, 65535⟩] [⟨5, 65535⟩] = some [⟨5, 65535⟩] := by
  refine ⟨by decide, by decide, ?_, by decide, by decide, by decide, by decide, by decide⟩
  intro sorted hs
  have h := sortOutcome_twice hs
  subst h
  decide

/-! ## Further facts about `operator and` -/

/-- Two canonical sequences with the same member values are the same sequence. -/
theorem canonical_ext : ∀ (S T : List Range), WellFormed S → Separated S → WellFormed T →
    Separated T → (∀ x, Covers S x ↔ Covers T x) → S = T := by
  intro S
  induction S with
  | nil =>
    intro T _ _ hT _ h
    cases T with
    | nil => rfl
    | cons b bs =>
      have hb := hT b (List.mem_cons_self _ _)
      exact absurd ((h b.begin).mpr ⟨b, List.mem_cons_self _ _, le_rfl, hb⟩) (covers_nil _)
  | cons a as ih =>
    intro T hS sS hT sT h
    have ha := hS a (List.mem_cons_self _ _)
    cases T with
    | nil =>
      exact absurd ((h a.begin).mp ⟨a, List.mem_cons_self _ _, le_rfl, ha⟩) (covers_nil _)
    | cons b bs =>
      have hb := hT b (List.mem_cons_self _ _)
      have has := separated_lt_of_mem as a hS sS
      have hbs := separated_lt_of_mem bs b hT sT
      -- a value of the head of one sequence lies in the head of the other
      have inT : ∀ x, a.begin ≤ x → x ≤ a.end_ → x ≤ b.end_ + 1 → b.Contains x := by
        intro x h1 h2 h3
        have hc : Covers (b :: bs) x := (h x).mp ⟨a, List.mem_cons_self _ _, h1, h2⟩
        rcases (covers_cons b bs x).mp hc with hc | ⟨c, hc, hcx⟩
        · exact hc
        · have := hbs c hc
          have := hcx.1
          omega
      have inS : ∀ x, b.begin ≤ x → x ≤ b.end_ → x ≤ a.end_ + 1 → a.Contains x := by
        intro x h1 h2 h3
        have hc : Covers (a :: as) x := (h x).mpr ⟨b, List.mem_cons_self _ _, h1, h2⟩
        rcases (covers_cons a as x).mp hc with hc | ⟨c, hc, hcx⟩
        · exact hc
        · have := has c hc
          have := hcx.1
          omega
      have hbegin : a.begin = b.begin := by
        rcases Nat.le_total a.begin b.begin with hle | hle
        · have := (inT a.begin le_rfl ha (by omega)).1
          omega
        · have := (inS b.begin le_rfl hb (by omega)).1
          omega
      have hend : a.end_ = b.end_ := by
        rcases Nat.lt_trichotomy a.end_ b.end_ with hlt | heq | hgt
        · have := (inS (a.end_ + 1) (by omega) (by omega) le_rfl).2
          omega
        · exact heq
        · have := (inT (b.end_ + 1) (by omega) (by omega) le_rfl).2
          omega
      have hab : a = b := by
        cases a; cases b
        simp only at hbegin hend
        rw [hbegin, hend]
      subst hab
      have htail : as = bs := by
        refine ih bs hS.wf_tail sS.sep_tail hT.wf_tail sT.sep_tail ?_
        intro x
        constructor
        · intro hx
          have hlt : a.end_ + 1 < x := by
            obtain ⟨c, hc, hcx⟩ := hx
            have := has c hc
            have := hcx.1
            omega
          rcases (covers_cons a bs x).mp ((h x).mp ((covers_cons a as x).mpr (Or.inr hx)))
            with hc | hc
          · have := hc.2
            omega
          · exact hc
        · intro hx
          have hlt : a.end_ + 1 < x := by
            obtain ⟨c, hc, hcx⟩ := hx
            have := hbs c hc
            have := hcx.1
            omega
          rcases (covers_cons a as x).mp ((h x).mpr ((covers_cons a bs x).mpr (Or.inr hx)))
            with hc | hc
          · have := hc.2
            omega
          · exact hc
      rw [htail]

theorem land_skip_left (a : Range) (l : List Range) (hwf : WellFormed (a :: l))
    (hsep : Separated (a :: l)) : land l (a :: l) = land l l := by
  cases l with
  | nil => simp [land]
  | cons b rest =>
    have hab : a.end_ + 1 < b.begin := hsep.1
    have hb := hwf b (List.mem_cons_of_mem _ (List.mem_cons_self _ _))
    have hov : ¬ (a.begin ≤ b.end_ ∧ b.begin ≤ a.end_) := by omega
    have hgt : b.end_ > a.end_ := by omega
    rw [land, if_neg hov, if_pos hgt, List.nil_append]

theorem land_self : ∀ (S : List Range), WellFormed S → Separated S → land S S = S := by
  intro S
  induction S with
  | nil => intro _ _; simp [land]
  | cons a as ih =>
    intro hwf hsep
    have ha := hwf a (List.mem_cons_self _ _)
    have hov : a.begin ≤ a.end_ ∧ a.begin ≤ a.end_ := ⟨ha, ha⟩
    have hgt : ¬ a.end_ > a.end_ := lt_irrefl _
    have hself : Range.mk (Nat.max a.begin a.begin) (Nat.min a.end_ a.end_) = a := by
      cases a; simp
    rw [land, if_pos hov, if_neg hgt, hself, land_skip_left a as hwf hsep,
      ih hwf.wf_tail hsep.sep_tail]
    rfl

/-- C11: `operator and` is idempotent.  For every canonical set `S`, `S AND S` is the same
interval sequence as `S`. -/
theorem and_idempotent (w : Width) (S : List Range) (hS : Canonical w S) : land S S = S :=
  land_self S hS.2.1 hS.2.2

theorem and_idempotent_witness :
    Canonical .w16 [⟨0, 10⟩, ⟨20, 30⟩, ⟨40, 65535⟩] ∧
    land [⟨0, 10⟩, ⟨20, 30⟩, ⟨40, 65535⟩] [⟨0, 10⟩, ⟨20, 30⟩, ⟨40, 65535⟩] =
      [⟨0, 10⟩, ⟨20, 30⟩, ⟨40, 65535⟩] :=
  ⟨by decide, and_idempotent .w16 [⟨0, 10⟩, ⟨20, 30⟩, ⟨40, 65535⟩] (by decide)⟩

/-- C13: `operator and` is commutative.  For every pair of canonical sets `A` and `B`,
`A AND B` is the same interval sequence as `B AND A`, although on equal interval ends the
loop advances the index of its left operand. -/
theorem and_commutative (w : Width) (A B : List Range) (hA : Canonical w A)
    (hB : Canonical w B) : land A B = land B A := by
  refine canonical_ext (land A B) (land B A) (land_wellFormed A B hA.2.1 hB.2.1)
    (land_separated A B hA.2.1 hA.2.2 hB.2.1 hB.2.2) (land_wellFormed B A hB.2.1 hA.2.1)
    (land_separated B A hB.2.1 hB.2.2 hA.2.1 hA.2.2) ?_
  intro x
  rw [land_covers x A B hA.2.1 hA.2.2 hB.2.1 hB.2.2,
    land_covers x B A hB.2.1 hB.2.2 hA.2.1 hA.2.2, and_comm]

theorem and_commutative_witness :
    Canonical .w16 [⟨0, 10⟩, ⟨20, 30⟩] ∧ Canonical .w16 [⟨5, 10⟩, ⟨12, 25⟩] ∧
    land [⟨0, 10⟩, ⟨20, 30⟩] [⟨5, 10⟩, ⟨12, 25⟩] =
      land [⟨5, 10⟩, ⟨12, 25⟩] [⟨0, 10⟩, ⟨20, 30⟩] :=
  ⟨by decide, by decide,
    and_commutative .w16 [⟨0, 10⟩, ⟨20, 30⟩] [⟨5, 10⟩, ⟨12, 25⟩] (by decide) (by decide)⟩

/-! ## Claims about `operator-` -/

theorem covers_lt_card {w : Width} {S : List Range} (hS : InDomain w S) {x : Nat}
    (hx : Covers S x) : x < w.card := by
  obtain ⟨r, hr, hrx⟩ := hx
  have := hS r hr
  have := hrx.2
  omega

theorem lsub_covers (w : Width) (A B : List Range) (hA : Canonical w A)
    (hB : Canonical w B) (x : Nat) : Covers (lsub w A B) x ↔ Covers A x ∧ ¬ Covers B x := by
  have hN := lnot_canonical w B hB
  rw [lsub, land_covers x A (lnot w B) hA.2.1 hA.2.2 hN.2.1 hN.2.2]
  constructor
  · rintro ⟨h1, h2⟩
    exact ⟨h1, (lnot_covers w B hB x (covers_lt_card hA.1 h1)).mp h2⟩
  · rintro ⟨h1, h2⟩
    exact ⟨h1, (lnot_covers w B hB x (covers_lt_card hA.1 h1)).mpr h2⟩

theorem lsub_canonical (w : Width) (A B : List Range) (hA : Canonical w A)
    (hB : Canonical w B) : Canonical w (lsub w A B) := by
  have hN := lnot_canonical w B hB
  exact ⟨land_inDomain w A _ hA.1 hN.1, land_wellFormed A _ hA.2.1 hN.2.1,
    land_separated A _ hA.2.1 hA.2.2 hN.2.1 hN.2.2⟩

/-- C15: `operator-` computes the set difference.  For every pair of canonical sets `A` and
`B`, `A SUB B` is `A AND NOT(B)`, and a value lies in some interval of `A SUB B` if and
only if it lies in some interval of `A` and in no interval of `B`. -/
theorem sub_computes_difference (w : Width) (A B : List Range) (hA : Canonical w A)
    (hB : Canonical w B) :
    lsub w A B = land A (lnot w B) ∧
    ∀ x, Covers (lsub w A B) x ↔ Covers A x ∧ ¬ Covers B x :=
  ⟨rfl, fun x => lsub_covers w A B hA hB x⟩

theorem sub_computes_difference_witness :
    Canonical .w16 [⟨0, 1500⟩] ∧ Canonical .w16 [⟨0, 1000⟩] ∧
    (lsub .w16 [⟨0, 1500⟩] [⟨0, 1000⟩] = land [⟨0, 1500⟩] (lnot .w16 [⟨0, 1000⟩]) ∧
    ∀ x, Covers (lsub .w16 [⟨0, 1500⟩] [⟨0, 1000⟩]) x ↔
      Covers [⟨0, 1500⟩] x ∧ ¬ Covers [⟨0, 1000⟩] x) :=
  ⟨by decide, by decide,
    sub_computes_difference .w16 [⟨0, 1500⟩] [⟨0, 1000⟩] (by decide) (by decide)⟩

/-! ## Further claims about `operator or` -/

/-- The two orders of concatenation have the same sort outcomes. -/
theorem sortOutcome_append_comm (A B sorted : List Range) :
    SortOutcome (A ++ B) sorted ↔ SortOutcome (B ++ A) sorted := by
  constructor
  · rintro ⟨hp, hs⟩; exact ⟨hp.trans List.perm_append_comm, hs⟩
  · rintro ⟨hp, hs⟩; exact ⟨hp.trans List.perm_append_comm, hs⟩

/-- When intervals of equal `begin` in the working sequence are equal, `operator or` is
commutative for all outcomes of the two sorts. -/
theorem or_comm_of_distinct_begins (w : Width) (A B : List Range)
    (hinj : ∀ a ∈ A ++ B, ∀ b ∈ A ++ B, a.begin = b.begin → a = b) (s1 s2 : List Range)
    (h1 : SortOutcome (A ++ B) s1) (h2 : SortOutcome (B ++ A) s2) :
    orSorted w s1 = orSorted w s2 := by
  have hstrict : s2.Sorted BeginLEStrict := by
    refine List.Pairwise.imp_of_mem ?_ h2.2
    intro a b ha hb hab
    have h2' := (sortOutcome_append_comm A B s2).mpr h2
    exact ⟨hab, hinj a (h2'.1.mem_iff.mp ha) b (h2'.1.mem_iff.mp hb)⟩
  rw [sortOutcome_unique hinj ((sortOutcome_append_comm A B s2).mpr h2).1 hstrict h1]

/-- C12 (evaluation at the failing input): with intervals of equal `begin` kept in the order
of concatenation, on every width the canonical sets `A = [(0,1500)]`, `B = [(0,1000)]` have
`A OR B = [(0,1500),(0,1000)]` and `B OR A = [(0,1500)]`. -/
theorem or_not_commutative (w : Width) :
    Canonical w [⟨0, 1500⟩] ∧ Canonical w [⟨0, 1000⟩] ∧
    lor w [⟨0, 1500⟩] [⟨0, 1000⟩] = some [⟨0, 1500⟩, ⟨0, 1000⟩] ∧
    lor w [⟨0, 1000⟩] [⟨0, 1500⟩] = some [⟨0, 1500⟩] ∧
    lor w [⟨0, 1500⟩] [⟨0, 1000⟩] ≠ lor w [⟨0, 1000⟩] [⟨0, 1500⟩] := by
  cases w <;> decide

/-- C19 (evaluation at the failing input): on every width the two orderings
`[(0,1500),(0,1000)]` and `[(0,1000),(0,1500)]` are both outcomes of the sort of one working
sequence, and the sweep of lines 80-89 returns `[(0,1500),(0,1000)]` for the first and
`[(0,1500)]` for the second. -/
theorem sweep_depends_on_tie_order (w : Width) :
    SortOutcome [⟨0, 1500⟩, ⟨0, 1000⟩] [⟨0, 1500⟩, ⟨0, 1000⟩] ∧
    SortOutcome [⟨0, 1500⟩, ⟨0, 1000⟩] [⟨0, 1000⟩, ⟨0, 1500⟩] ∧
    orSorted w [⟨0, 1500⟩, ⟨0, 1000⟩] = some [⟨0, 1500⟩, ⟨0, 1000⟩] ∧
    orSorted w [⟨0, 1000⟩, ⟨0, 1500⟩] = some [⟨0, 1500⟩] ∧
    orSorted w [⟨0, 1500⟩, ⟨0, 1000⟩] ≠ orSorted w [⟨0, 1000⟩, ⟨0, 1500⟩] := by
  refine ⟨⟨List.Perm.refl _, by decide⟩, ⟨List.Perm.swap _ _ _, by decide⟩, ?_, ?_, ?_⟩ <;>
    cases w <;> decide

/-- C20 (evaluation at the failing inputs): on the 64-bit and the 32-bit domain
`T::MAX + 1` is `0` in the comparison of line 84, the test of a run ending at `T::MAX`
fails for every interval with `begin > 0`, and the sweep over `[(5,MAX),(5,MAX)]` returns
both intervals; on the 16-bit domain the sum is `65536` and the sweep returns `[(5,MAX)]`. -/
theorem merge_test_wraps_at_max :
    succCmp .w64 Width.w64.max = 0 ∧ succCmp .w32 Width.w32.max = 0 ∧
    succCmp .w16 Width.w16.max = 65536 ∧
    (∀ last cur : Range, last.end_ = Width.w64.max → 0 < cur.begin →
      mergeTest .w64 last cur = false) ∧
    (∀ last cur : Range, last.end_ = Width.w32.max → 0 < cur.begin →
      mergeTest .w32 last cur = false) ∧
    orSorted .w64 [⟨5, Width.w64.max⟩, ⟨5, Width.w64.max⟩] =
      some [⟨5, Width.w64.max⟩, ⟨5, Width.w64.max⟩] ∧
    orSorted .w32 [⟨5, Width.w32.max⟩, ⟨5, Width.w32.max⟩] =
      some [⟨5, Width.w32.max⟩, ⟨5, Width.w32.max⟩] ∧
    orSorted .w16 [⟨5, Width.w16.max⟩, ⟨5, Width.w16.max⟩] = some [⟨5, Width.w16.max⟩] := by
  refine ⟨by decide, by decide, by decide, ?_, ?_, by decide, by decide, by decide⟩
  · intro last cur hl hc
    have h0 : succCmp .w64 Width.w64.max = 0 := by decide
    simp only [mergeTest, hl, h0, Bool.and_eq_false_iff, decide_eq_false_iff_not]
    exact Or.inl (by omega)
  · intro last cur hl hc
    have h0 : succCmp .w32 Width.w32.max = 0 := by decide
    simp only [mergeTest, hl, h0, Bool.and_eq_false_iff, decide_eq_false_iff_not]
    exact Or.inl (by omega)

/-! ## The sweep on a working sequence of copies and disjoint intervals -/

theorem succCmp_eq {w : Width} {x : Nat} (h : x + 1 < w.card) : succCmp w x = x + 1 := by
  cases w
  · rfl
  · exact Nat.mod_eq_of_lt (by simpa [Width.card, Width.bits] using h)
  · exact Nat.mod_eq_of_lt (by simpa [Width.card, Width.bits] using h)

theorem mergeTest_false {w : Width} {last cur : Range} (h : mergeTest w last cur = false) :
    succCmp w last.end_ < cur.begin ∨ cur.end_ < last.end_ := by
  simp only [mergeTest, Bool.and_eq_false_iff, decide_eq_false_iff_not] at h
  omega

/-- The sweep returns a canonical sequence when every interval of the sorted working
sequence is a copy of the one before it or begins past its end.  `head` is the interval the
sweep has just consumed, `last` the run it is extending. -/
theorem sweep_chain (w : Width) : ∀ (rest : List Range) (head last : Range),
    List.Chain (Step w) head rest → InDomain w (head :: rest) → WellFormed (head :: rest) →
      last.end_ = head.end_ → last.begin ≤ head.begin →
        Canonical w (sweep w last rest) ∧ ∀ r ∈ sweep w last rest, last.begin ≤ r.begin := by
  intro rest
  induction rest with
  | nil =>
    intro head last _ hd hw he hb
    have h1 := hd head (List.mem_cons_self _ _)
    have h2 := hw head (List.mem_cons_self _ _)
    simp only [sweep]
    refine ⟨⟨?_, ?_, trivial⟩, ?_⟩
    · intro r hr
      rw [List.mem_singleton] at hr
      subst hr
      omega
    · intro r hr
      rw [List.mem_singleton] at hr
      subst hr
      omega
    · intro r hr
      rw [List.mem_singleton] at hr
      subst hr
      exact le_rfl
  | cons cur rest ih =>
    intro head last hchain hd hw he hb
    have h1 := hd head (List.mem_cons_self _ _)
    have h2 := hw head (List.mem_cons_self _ _)
    have hcd := hd cur (List.mem_cons_of_mem _ (List.mem_cons_self _ _))
    have hcw := hw cur (List.mem_cons_of_mem _ (List.mem_cons_self _ _))
    obtain ⟨hstep, hchain'⟩ := List.chain_cons.mp hchain
    have hbcur : last.begin ≤ cur.begin := by
      rcases hstep with ⟨rfl, -⟩ | h
      · exact hb
      · omega
    by_cases hm : mergeTest w last cur = true
    · have ht := mergeTest_true hm
      have hmax : last.end_.max cur.end_ = cur.end_ := Nat.max_eq_right ht.2
      simp only [sweep, hm, if_true]
      exact ih cur (Range.mk last.begin (last.end_.max cur.end_)) hchain' hd.dom_tail
        hw.wf_tail hmax hbcur
    · have hf : mergeTest w last cur = false := by simpa using hm
      have hgap : last.end_ + 1 < cur.begin := by
        rcases hstep with ⟨rfl, hself⟩ | h
        · exfalso
          have hle : last.begin ≤ last.end_ := by omega
          have hlast : mergeTest w last cur = true := by
            simp only [mergeTest, Bool.and_eq_true, decide_eq_true_eq]
            refine ⟨?_, by omega⟩
            rcases hself with rfl | hne | h0
            · simp only [succCmp]; omega
            · have hmax := w.max_add_one
              rw [succCmp_eq (by omega)]
              omega
            · rw [h0]; exact Nat.zero_le _
          rw [hlast] at hf
          cases hf
        · rcases mergeTest_false hf with h' | h'
          · rw [succCmp_eq (by omega)] at h'
            exact h'
          · omega
      obtain ⟨hcan, hge⟩ := ih cur cur hchain' hd.dom_tail hw.wf_tail rfl le_rfl
      simp only [sweep, hf, Bool.false_eq_true, if_false]
      refine ⟨⟨?_, ?_, ?_⟩, ?_⟩
      · intro r hr
        rcases List.mem_cons.mp hr with rfl | hr
        · omega
        · exact hcan.1 r hr
      · intro r hr
        rcases List.mem_cons.mp hr with rfl | hr
        · omega
        · exact hcan.2.1 r hr
      · refine separated_cons ?_ hcan.2.2
        intro r hr
        have := hge r hr
        omega
      · intro r hr
        rcases List.mem_cons.mp hr with rfl | hr
        · exact le_rfl
        · have := hge r hr
          omega

/-- A working sequence in which intervals of equal `begin` are equal has one sort outcome,
whatever it is. -/
theorem sortOutcome_eq {input s1 s2 : List Range}
    (hinj : ∀ a ∈ input, ∀ b ∈ input, a.begin = b.begin → a = b)
    (h1 : SortOutcome input s1) (h2 : SortOutcome input s2) : s1 = s2 := by
  have hstrict : s2.Sorted BeginLEStrict := by
    refine List.Pairwise.imp_of_mem ?_ h2.2
    intro a b ha hb hab
    exact ⟨hab, hinj a (h2.1.mem_iff.mp ha) b (h2.1.mem_iff.mp hb)⟩
  exact sortOutcome_unique hinj h2.1 hstrict h1

/-- The sweep over a sorted working sequence of pairwise disjoint intervals is canonical. -/
theorem orSorted_disjoint (w : Width) (input sorted : List Range) (hne : input ≠ [])
    (hd : InDomain w input) (hw : WellFormed input) (hdisj : input.Pairwise Disjoint)
    (hs : SortOutcome input sorted) :
    ∃ res, orSorted w sorted = some res ∧ Canonical w res ∧
      ∀ x, Covers res x ↔ Covers input x := by
  obtain ⟨res, hres, hcov⟩ := orSorted_covers w input sorted hne hs
  refine ⟨res, hres, ?_, hcov⟩
  obtain ⟨hperm, hsorted⟩ := hs
  have hsym : ∀ {x y : Range}, Disjoint x y → Disjoint y x := fun h => Or.symm h
  have hdisj' : sorted.Pairwise Disjoint := (hperm.pairwise_iff hsym).mpr hdisj
  have hd' : InDomain w sorted := fun r hr => hd r (hperm.mem_iff.mp hr)
  have hw' : WellFormed sorted := fun r hr => hw r (hperm.mem_iff.mp hr)
  have hlt : sorted.Pairwise (fun a b => a.end_ < b.begin) := by
    refine List.Pairwise.imp_of_mem ?_ (hsorted.and hdisj')
    intro a b ha hb hab
    obtain ⟨h1, h2⟩ := hab
    have h3 : a.begin ≤ b.begin := h1
    have := hw' a ha
    have := hw' b hb
    rcases h2 with h2 | h2
    · exact h2
    · omega
  cases sorted with
  | nil => cases hres
  | cons first rest =>
    simp only [orSorted, Option.some.injEq] at hres
    subst hres
    have hchain : List.Chain (Step w) first rest :=
      (List.Pairwise.chain hlt).imp (fun _ _ h => Or.inr h)
    exact (sweep_chain w rest first first hchain hd' hw' rfl le_rfl).1

/-! ## `operator^` -/

theorem separated_pairwise_disjoint : ∀ (S : List Range), WellFormed S → Separated S →
    S.Pairwise Disjoint := by
  intro S
  induction S with
  | nil => intro _ _; exact List.Pairwise.nil
  | cons a l ih =>
    intro hw hs
    refine List.Pairwise.cons ?_ (ih hw.wf_tail hs.sep_tail)
    intro c hc
    have := separated_lt_of_mem l a hw hs c hc
    exact Or.inl (by omega)

theorem begin_inj_of_disjoint {l : List Range} (hw : WellFormed l)
    (hd : l.Pairwise Disjoint) : ∀ a ∈ l, ∀ b ∈ l, a.begin = b.begin → a = b := by
  have hR : l.Pairwise (fun a b : Range => a.begin = b.begin → a = b) := by
    refine List.Pairwise.imp_of_mem ?_ hd
    intro a b ha hb hab heq
    have := hw a ha
    have := hw b hb
    rcases hab with h | h <;> omega
  have hsymm : Symmetric (fun a b : Range => a.begin = b.begin → a = b) := by
    intro x y h e
    exact (h e.symm).symm
  intro a ha b hb
  exact List.Pairwise.forall_of_forall hsymm (fun _ _ _ => rfl) hR ha hb

/-- The two differences `A - B` and `B - A` of canonical sets have no value in common, so
the working sequence of `operator^` consists of pairwise disjoint intervals. -/
theorem xor_input_disjoint (w : Width) (A B : List Range) (hA : Canonical w A)
    (hB : Canonical w B) : (lsub w A B ++ lsub w B A).Pairwise Disjoint := by
  have hX := lsub_canonical w A B hA hB
  have hY := lsub_canonical w B A hB hA
  refine List.pairwise_append.mpr ⟨separated_pairwise_disjoint _ hX.2.1 hX.2.2,
    separated_pairwise_disjoint _ hY.2.1 hY.2.2, ?_⟩
  intro a ha b hb
  have hwa := hX.2.1 a ha
  have hwb := hY.2.1 b hb
  by_contra hcon
  simp only [Disjoint, not_or, not_lt] at hcon
  have hva : a.Contains (Nat.max a.begin b.begin) := by
    simp only [Range.Contains, Nat.max_def]; split <;> omega
  have hvb : b.Contains (Nat.max a.begin b.begin) := by
    simp only [Range.Contains, Nat.max_def]; split <;> omega
  have h1 := (lsub_covers w A B hA hB _).mp ⟨a, ha, hva⟩
  have h2 := (lsub_covers w B A hB hA _).mp ⟨b, hb, hvb⟩
  exact h2.2 h1.1

theorem xor_input_inDomain (w : Width) (A B : List Range) (hA : Canonical w A)
    (hB : Canonical w B) : InDomain w (lsub w A B ++ lsub w B A) := by
  intro r hr
  rcases List.mem_append.mp hr with h | h
  · exact (lsub_canonical w A B hA hB).1 r h
  · exact (lsub_canonical w B A hB hA).1 r h

theorem xor_input_wellFormed (w : Width) (A B : List Range) (hA : Canonical w A)
    (hB : Canonical w B) : WellFormed (lsub w A B ++ lsub w B A) := by
  intro r hr
  rcases List.mem_append.mp hr with h | h
  · exact (lsub_canonical w A B hA hB).2.1 r h
  · exact (lsub_canonical w B A hB hA).2.1 r h

/-- The working sequence of `operator^` is empty only for equal operands. -/
theorem xor_input_ne_nil (w : Width) (A B : List Range) (hA : Canonical w A)
    (hB : Canonical w B) (hne : A ≠ B) : lsub w A B ++ lsub w B A ≠ [] := by
  intro hnil
  obtain ⟨hX, hY⟩ := List.append_eq_nil.mp hnil
  apply hne
  refine canonical_ext A B hA.2.1 hA.2.2 hB.2.1 hB.2.2 ?_
  intro x
  have h1 := lsub_covers w A B hA hB x
  have h2 := lsub_covers w B A hB hA x
  rw [hX] at h1
  rw [hY] at h2
  have hnil := covers_nil x
  constructor
  · intro h
    by_contra hc
    exact hnil (h1.mpr ⟨h, hc⟩)
  · intro h
    by_contra hc
    exact hnil (h2.mpr ⟨h, hc⟩)

/-- The difference of a canonical set with itself is the empty sequence, and `operator^`
then applies `operator or` to two empty sets. -/
theorem xor_self_none (w : Width) (A : List Range) (hA : Canonical w A) :
    lsub w A A = [] ∧ lxor w A A = none ∧
    ∀ sorted, SortOutcome (lsub w A A ++ lsub w A A) sorted → orSorted w sorted = none := by
  have hX : lsub w A A = [] := by
    have hc := lsub_canonical w A A hA hA
    cases h : lsub w A A with
    | nil => rfl
    | cons r rest =>
      rw [h] at hc
      have hr := hc.2.1 r (List.mem_cons_self _ _)
      have hcov : Covers (lsub w A A) r.begin := by
        rw [h]; exact ⟨r, List.mem_cons_self _ _, le_rfl, hr⟩
      have := (lsub_covers w A A hA hA r.begin).mp hcov
      exact absurd this.1 this.2
  refine ⟨hX, ?_, ?_⟩
  · rw [lxor, hX]; rfl
  · intro sorted hs
    rw [hX] at hs
    have h : sorted = [] := List.Perm.eq_nil hs.1
    subst h
    rfl

/-- For different canonical operands `operator^` returns, for every outcome of the sort, a
canonical sequence that holds the values lying in exactly one operand. -/
theorem xor_of_ne (w : Width) (A B : List Range) (hA : Canonical w A) (hB : Canonical w B)
    (hne : A ≠ B) :
    (∀ sorted, SortOutcome (lsub w A B ++ lsub w B A) sorted →
      ∃ res, orSorted w sorted = some res ∧ Canonical w res ∧
        ∀ x, Covers res x ↔ (Covers A x ∧ ¬ Covers B x) ∨ (Covers B x ∧ ¬ Covers A x)) ∧
    ∃ res, lxor w A B = some res ∧ Canonical w res ∧
      ∀ x, Covers res x ↔ (Covers A x ∧ ¬ Covers B x) ∨ (Covers B x ∧ ¬ Covers A x) := by
  have key : ∀ sorted, SortOutcome (lsub w A B ++ lsub w B A) sorted →
      ∃ res, orSorted w sorted = some res ∧ Canonical w res ∧
        ∀ x, Covers res x ↔ (Covers A x ∧ ¬ Covers B x) ∨ (Covers B x ∧ ¬ Covers A x) := by
    intro sorted hs
    obtain ⟨res, hres, hcan, hcov⟩ := orSorted_disjoint w _ sorted
      (xor_input_ne_nil w A B hA hB hne) (xor_input_inDomain w A B hA hB)
      (xor_input_wellFormed w A B hA hB) (xor_input_disjoint w A B hA hB) hs
    refine ⟨res, hres, hcan, fun x => ?_⟩
    rw [hcov x, covers_append, lsub_covers w A B hA hB x, lsub_covers w B A hB hA x]
  exact ⟨key, key _ (sortOutcome_sortByBegin _)⟩

theorem xor_of_ne_witness :
    Canonical .w16 [⟨0, 1500⟩] ∧ Canonical .w16 [⟨0, 1000⟩] ∧
    ∃ res, lxor .w16 [⟨0, 1500⟩] [⟨0, 1000⟩] = some res ∧ Canonical .w16 res ∧
      ∀ x, Covers res x ↔ (Covers [⟨0, 1500⟩] x ∧ ¬ Covers [⟨0, 1000⟩] x) ∨
        (Covers [⟨0, 1000⟩] x ∧ ¬ Covers [⟨0, 1500⟩] x) :=
  ⟨by decide, by decide,
    (xor_of_ne .w16 [⟨0, 1500⟩] [⟨0, 1000⟩] (by decide) (by decide) (by decide)).2⟩

/-- The operator `^` is symmetric where it returns: for canonical sets `A` and `B` the two
working sequences have the same single sort outcome, so for all outcomes of the two sorts
the sweeps agree, and for `A ≠ B` both operators return one and the same interval
sequence.  For `A = B` neither returns (`xor_self_none`). -/
theorem xor_symmetric (w : Width) (A B : List Range) (hA : Canonical w A)
    (hB : Canonical w B) :
    lxor w A B = lxor w B A ∧
    (∀ s1 s2, SortOutcome (lsub w A B ++ lsub w B A) s1 →
      SortOutcome (lsub w B A ++ lsub w A B) s2 → orSorted w s1 = orSorted w s2) ∧
    (A ≠ B → ∃ res, lxor w A B = some res ∧ lxor w B A = some res) := by
  have hinj := begin_inj_of_disjoint (xor_input_wellFormed w A B hA hB)
    (xor_input_disjoint w A B hA hB)
  have key : ∀ s1 s2, SortOutcome (lsub w A B ++ lsub w B A) s1 →
      SortOutcome (lsub w B A ++ lsub w A B) s2 → orSorted w s1 = orSorted w s2 := by
    intro s1 s2 h1 h2
    rw [sortOutcome_eq hinj h1 ((sortOutcome_append_comm _ _ s2).mp h2)]
  have heq : lxor w A B = lxor w B A :=
    key _ _ (sortOutcome_sortByBegin _) (sortOutcome_sortByBegin _)
  refine ⟨heq, key, ?_⟩
  intro hne
  obtain ⟨res, hres, -⟩ := orSorted_covers w _ _ (xor_input_ne_nil w A B hA hB hne)
    (sortOutcome_sortByBegin (lsub w A B ++ lsub w B A))
  exact ⟨res, hres, heq ▸ hres⟩

theorem xor_symmetric_witness :
    Canonical .w16 [⟨0, 1500⟩] ∧ Canonical .w16 [⟨0, 1000⟩] ∧
    lxor .w16 [⟨0, 1500⟩] [⟨0, 1000⟩] = lxor .w16 [⟨0, 1000⟩] [⟨0, 1500⟩] ∧
    ∃ res, lxor .w16 [⟨0, 1500⟩] [⟨0, 1000⟩] = some res ∧
      lxor .w16 [⟨0, 1000⟩] [⟨0, 1500⟩] = some res :=
  ⟨by decide, by decide,
    (xor_symmetric .w16 [⟨0, 1500⟩] [⟨0, 1000⟩] (by decide) (by decide)).1,
    (xor_symmetric .w16 [⟨0, 1500⟩] [⟨0, 1000⟩] (by decide) (by decide)).2.2 (by decide)⟩

/-- C14 (evaluation at the failing input): on every width, for the canonical sets
`A = B = [(0,5)]` both differences `A - B` and `B - A` are empty, so `A XOR B` and
`B XOR A` both apply `operator or` to two empty sets and read `front()` of an empty
sequence on line 82: for every outcome of the two sorts neither returns a sequence, so
there is no interval sequence that `A XOR B` and `B XOR A` both are. -/
theorem xor_symmetry_undefined_at_equal_sets (w : Width) :
    Canonical w [⟨0, 5⟩] ∧
    lsub w [⟨0, 5⟩] [⟨0, 5⟩] = [] ∧
    (∀ s1 s2, SortOutcome (lsub w [⟨0, 5⟩] [⟨0, 5⟩] ++ lsub w [⟨0, 5⟩] [⟨0, 5⟩]) s1 →
      SortOutcome (lsub w [⟨0, 5⟩] [⟨0, 5⟩] ++ lsub w [⟨0, 5⟩] [⟨0, 5⟩]) s2 →
      orSorted w s1 = none ∧ orSorted w s2 = none) ∧
    lxor w [⟨0, 5⟩] [⟨0, 5⟩] = none ∧
    ¬ ∃ res, lxor w [⟨0, 5⟩] [⟨0, 5⟩] = some res ∧ lxor w [⟨0, 5⟩] [⟨0, 5⟩] = some res := by
  have h5 : Canonical w [⟨0, 5⟩] := by cases w <;> decide
  have hs := xor_self_none w [⟨0, 5⟩] h5
  refine ⟨h5, hs.1, fun s1 s2 h1 h2 => ⟨hs.2.2 s1 h1, hs.2.2 s2 h2⟩, hs.2.1, ?_⟩
  rintro ⟨res, hres, -⟩
  rw [hs.2.1] at hres
  cases hres

/-- C16 (evaluation at the failing inputs): on every width `A XOR A` for `A = []` and for
`A = [(0,5)]` has both differences empty and applies `operator or` to two empty sets, which
reads `front()` of an empty sequence: no result is defined, for any outcome of the sort. -/
theorem xor_self_undefined (w : Width) :
    Canonical w [] ∧ lxor w [] [] = none ∧
    Canonical w [⟨0, 5⟩] ∧ lsub w [⟨0, 5⟩] [⟨0, 5⟩] = [] ∧ lxor w [⟨0, 5⟩] [⟨0, 5⟩] = none ∧
    ∀ sorted, SortOutcome (lsub w [⟨0, 5⟩] [⟨0, 5⟩] ++ lsub w [⟨0, 5⟩] [⟨0, 5⟩]) sorted →
      orSorted w sorted = none := by
  have h0 : Canonical w [] := by cases w <;> decide
  have h5 : Canonical w [⟨0, 5⟩] := by cases w <;> decide
  have hs := xor_self_none w [⟨0, 5⟩] h5
  exact ⟨h0, (xor_self_none w [] h0).2.1, h5, hs.1, hs.2.1, hs.2.2⟩

/-! ## `Mask::to_collapsed` -/

theorem baseAddr_eq {ip : Nat} (h : ip < 2 ^ 32) : baseAddr ip = ip * 65536 := by
  rw [baseAddr, Nat.shiftLeft_eq]
  exact Nat.mod_eq_of_lt (by omega)

theorem addPort_eq {ip p : Nat} (hip : ip < 2 ^ 32) (hp : p < 2 ^ 16) :
    addPort (baseAddr ip) p = ip * 65536 + p := by
  rw [addPort, baseAddr_eq hip]
  exact Nat.mod_eq_of_lt (by omega)

theorem shl_or_eq (ip : Nat) {p : Nat} (hp : p < 2 ^ 16) :
    (ip <<< 16) ||| p = ip * 65536 + p := by
  rw [Nat.shiftLeft_eq, Nat.mul_comm ip (2 ^ 16), ← Nat.mul_add_lt_is_or hp ip]

theorem mem_ipValues {addrs : Range} {ip : Nat} :
    ip ∈ ipValues addrs ↔ addrs.begin ≤ ip ∧ ip ≤ addrs.end_ := by
  rw [ipValues, List.mem_range'_1]
  omega

/-- The intervals of the expansion: one for every address of an IP range and every port
range, with bounds `ip * 65536 + port.begin` and `ip * 65536 + port.end`, no sum wrapping. -/
theorem mem_to_collapsed (m : Mask) (hip : InDomain .w32 m.ips_ranges)
    (hport : InDomain .w16 m.port_ranges) (r : Range) :
    r ∈ m.to_collapsed ↔ ∃ ip, Covers m.ips_ranges ip ∧ ∃ port ∈ m.port_ranges,
      r = Range.mk (ip * 65536 + port.begin) (ip * 65536 + port.end_) := by
  simp only [Mask.to_collapsed, Mask.intervalsOf, List.mem_flatMap, List.mem_map]
  constructor
  · rintro ⟨addrs, haddrs, ip, hipv, port, hp, rfl⟩
    have hr := mem_ipValues.mp hipv
    have hd := hip addrs haddrs
    have hpd := hport port hp
    simp only [Width.card, Width.bits] at hd hpd
    refine ⟨ip, ⟨addrs, haddrs, hr⟩, port, hp, ?_⟩
    rw [addPort_eq (by omega) hpd.1, addPort_eq (by omega) hpd.2]
  · rintro ⟨ip, ⟨addrs, haddrs, hr⟩, port, hp, rfl⟩
    have hd := hip addrs haddrs
    have hpd := hport port hp
    have hr1 := hr.1
    have hr2 := hr.2
    simp only [Width.card, Width.bits] at hd hpd
    refine ⟨addrs, haddrs, ip, mem_ipValues.mpr hr, port, hp, ?_⟩
    rw [addPort_eq (by omega) hpd.1, addPort_eq (by omega) hpd.2]

theorem to_collapsed_covers (m : Mask) (hip : InDomain .w32 m.ips_ranges)
    (hport : InDomain .w16 m.port_ranges) (v : Nat) :
    Covers m.to_collapsed v ↔ ∃ ip port, Covers m.ips_ranges ip ∧
      Covers m.port_ranges port ∧ v = ip * 65536 + port := by
  constructor
  · rintro ⟨r, hr, hv⟩
    obtain ⟨ip, hcov, port, hp, rfl⟩ := (mem_to_collapsed m hip hport r).mp hr
    simp only [Range.Contains] at hv
    exact ⟨ip, v - ip * 65536, hcov, ⟨port, hp, by omega, by omega⟩, by omega⟩
  · rintro ⟨ip, p, hcov, ⟨port, hp, hpc⟩, rfl⟩
    refine ⟨Range.mk (ip * 65536 + port.begin) (ip * 65536 + port.end_),
      (mem_to_collapsed m hip hport _).mpr ⟨ip, hcov, port, hp, rfl⟩, ?_⟩
    have h1 := hpc.1
    have h2 := hpc.2
    simp only [Range.Contains]
    omega

/-- C17: `Mask::to_collapsed` represents the Cartesian product of the IP ranges and the port
ranges.  For every mask (ranges over `uint32_t` and `uint16_t`, canonical or not) a value
lies in some interval of `to_collapsed()` if and only if it is `(ip << 16) | port` for a
32-bit `ip` lying in one of `ips_ranges` and a 16-bit `port` lying in one of `port_ranges`;
and both bounds of every interval are exact sums `(ip << 16) + port` within one address:
dividing them by `2 ^ 16` gives `ip` back. -/
theorem to_collapsed_product (m : Mask) (hip : InDomain .w32 m.ips_ranges)
    (hport : InDomain .w16 m.port_ranges) :
    (∀ v, Covers m.to_collapsed v ↔ ∃ ip port, ip < 2 ^ 32 ∧ port < 2 ^ 16 ∧
      Covers m.ips_ranges ip ∧ Covers m.port_ranges port ∧ v = (ip <<< 16) ||| port) ∧
    ∀ r ∈ m.to_collapsed, ∃ ip, ip < 2 ^ 32 ∧ Covers m.ips_ranges ip ∧
      (∃ port ∈ m.port_ranges, r.begin = (ip <<< 16) + port.begin ∧
        r.end_ = (ip <<< 16) + port.end_) ∧
      r.begin / 2 ^ 16 = ip ∧ r.end_ / 2 ^ 16 = ip := by
  constructor
  · intro v
    rw [to_collapsed_covers m hip hport v]
    constructor
    · rintro ⟨ip, p, h1, h2, rfl⟩
      have hi := covers_lt_card hip h1
      have hp := covers_lt_card hport h2
      simp only [Width.card, Width.bits] at hi hp
      exact ⟨ip, p, hi, hp, h1, h2, (shl_or_eq ip hp).symm⟩
    · rintro ⟨ip, p, -, hp, h1, h2, rfl⟩
      exact ⟨ip, p, h1, h2, shl_or_eq ip hp⟩
  · intro r hr
    obtain ⟨ip, hcov, port, hp, rfl⟩ := (mem_to_collapsed m hip hport r).mp hr
    have hi := covers_lt_card hip hcov
    have hpd := hport port hp
    simp only [Width.card, Width.bits] at hi hpd
    refine ⟨ip, hi, hcov, ⟨port, hp, ?_, ?_⟩, ?_, ?_⟩
    · simp only [Nat.shiftLeft_eq]
    · simp only [Nat.shiftLeft_eq]
    · simp only; omega
    · simp only; omega

theorem to_collapsed_product_witness :
    InDomain .w32 (Mask.mk [⟨0, 1⟩] [⟨0, 2⟩]).ips_ranges ∧
    InDomain .w16 (Mask.mk [⟨0, 1⟩] [⟨0, 2⟩]).port_ranges ∧
    (Mask.mk [⟨0, 1⟩] [⟨0, 2⟩]).to_collapsed = [⟨0, 2⟩, ⟨65536, 65538⟩] ∧
    (∀ v, Covers (Mask.mk [⟨0, 1⟩] [⟨0, 2⟩]).to_collapsed v ↔ ∃ ip port,
      ip < 2 ^ 32 ∧ port < 2 ^ 16 ∧ Covers (Mask.mk [⟨0, 1⟩] [⟨0, 2⟩]).ips_ranges ip ∧
      Covers (Mask.mk [⟨0, 1⟩] [⟨0, 2⟩]).port_ranges port ∧ v = (ip <<< 16) ||| port) :=
  ⟨by decide, by decide, by decide,
    (to_collapsed_product (Mask.mk [⟨0, 1⟩] [⟨0, 2⟩]) (by decide) (by decide)).1⟩

/-! ## `operator or` on the expansion of a mask -/

theorem separated_pairwise_apart : ∀ (S : List Range), WellFormed S → Separated S →
    S.Pairwise (fun a b => a.end_ + 1 < b.begin) := by
  intro S
  induction S with
  | nil => intro _ _; exact List.Pairwise.nil
  | cons a l ih =>
    intro hw hs
    exact List.Pairwise.cons (separated_lt_of_mem l a hw hs) (ih hw.wf_tail hs.sep_tail)

theorem mem_intervalsOf (m : Mask) (hport : InDomain .w16 m.port_ranges) {ip : Nat}
    (hip : ip < 2 ^ 32) {r : Range} (hr : r ∈ m.intervalsOf ip) :
    ∃ port ∈ m.port_ranges, r = Range.mk (ip * 65536 + port.begin) (ip * 65536 + port.end_) := by
  simp only [Mask.intervalsOf, List.mem_map] at hr
  obtain ⟨port, hp, rfl⟩ := hr
  have hpd := hport port hp
  simp only [Width.card, Width.bits] at hpd
  exact ⟨port, hp, by rw [addPort_eq hip hpd.1, addPort_eq hip hpd.2]⟩

/-- Intervals of a lower address end before intervals of a higher address begin. -/
theorem intervalsOf_lt (m : Mask) (hport : InDomain .w16 m.port_ranges) {i1 i2 : Nat}
    (h12 : i1 < i2) (h2 : i2 < 2 ^ 32) :
    ∀ x ∈ m.intervalsOf i1, ∀ y ∈ m.intervalsOf i2, x.end_ < y.begin := by
  intro x hx y hy
  obtain ⟨p, hp, rfl⟩ := mem_intervalsOf m hport (by omega) hx
  obtain ⟨q, hq, rfl⟩ := mem_intervalsOf m hport h2 hy
  have hpd := hport p hp
  simp only [Width.card, Width.bits] at hpd
  simp only
  omega

/-- On canonical IP and port ranges the expansion is ascending and its intervals are
pairwise disjoint: every interval ends before the next begins. -/
theorem to_collapsed_pairwise (m : Mask) (hip : Canonical .w32 m.ips_ranges)
    (hport : Canonical .w16 m.port_ranges) :
    m.to_collapsed.Pairwise (fun a b => a.end_ < b.begin) := by
  rw [Mask.to_collapsed, List.pairwise_flatMap]
  refine ⟨fun addrs haddrs => ?_, ?_⟩
  · have hd := hip.1 addrs haddrs
    simp only [Width.card, Width.bits] at hd
    rw [List.pairwise_flatMap]
    refine ⟨fun ip hipv => ?_, ?_⟩
    · have hr := mem_ipValues.mp hipv
      have hi : ip < 2 ^ 32 := by omega
      rw [Mask.intervalsOf, List.pairwise_map]
      refine List.Pairwise.imp_of_mem ?_
        (separated_pairwise_apart _ hport.2.1 hport.2.2)
      intro p q hp hq hpq
      have hpd := hport.1 p hp
      have hqd := hport.1 q hq
      simp only [Width.card, Width.bits] at hpd hqd
      rw [addPort_eq hi hpd.2, addPort_eq hi hqd.1]
      simp only
      omega
    · refine List.Pairwise.imp_of_mem ?_ (List.pairwise_lt_range' addrs.begin _)
      intro i1 i2 _ hi2 h12
      have hr := mem_ipValues.mp hi2
      exact intervalsOf_lt m hport.1 h12 (by omega)
  · refine List.Pairwise.imp_of_mem ?_ (separated_pairwise_apart _ hip.2.1 hip.2.2)
    intro a1 a2 h1 h2 h12 x hx y hy
    obtain ⟨i1, hi1, hx1⟩ := List.mem_flatMap.mp hx
    obtain ⟨i2, hi2, hy2⟩ := List.mem_flatMap.mp hy
    have hr1 := mem_ipValues.mp hi1
    have hr2 := mem_ipValues.mp hi2
    have hd := hip.1 a2 h2
    simp only [Width.card, Width.bits] at hd
    exact intervalsOf_lt m hport.1 (by omega) (by omega) x hx1 y hy2

theorem to_collapsed_wellFormed (m : Mask) (hip : Canonical .w32 m.ips_ranges)
    (hport : Canonical .w16 m.port_ranges) : WellFormed m.to_collapsed := by
  intro r hr
  obtain ⟨ip, -, port, hp, rfl⟩ := (mem_to_collapsed m hip.1 hport.1 r).mp hr
  have := hport.2.1 port hp
  simp only
  omega

/-- Every bound of the expansion is below `2 ^ 48`. -/
theorem to_collapsed_lt (m : Mask) (hip : InDomain .w32 m.ips_ranges)
    (hport : InDomain .w16 m.port_ranges) :
    ∀ r ∈ m.to_collapsed, r.begin < 2 ^ 48 ∧ r.end_ < 2 ^ 48 := by
  intro r hr
  obtain ⟨ip, hcov, port, hp, rfl⟩ := (mem_to_collapsed m hip hport r).mp hr
  have hi := covers_lt_card hip hcov
  have hpd := hport port hp
  simp only [Width.card, Width.bits] at hi hpd
  simp only
  omega

theorem mem_twice {c : Range} : ∀ {l : List Range}, c ∈ twice l ↔ c ∈ l := by
  intro l
  induction l with
  | nil => simp [twice]
  | cons a l ih => simp only [twice, List.mem_cons, ih]; tauto

theorem twice_sorted_of_lt : ∀ {S : List Range},
    S.Pairwise (fun a b => a.begin < b.begin) → (twice S).Sorted BeginLEStrict := by
  intro S
  induction S with
  | nil => intro _; exact List.sorted_nil
  | cons r l ih =>
    intro hp
    obtain ⟨hr, hl⟩ := List.pairwise_cons.mp hp
    have hmem : ∀ c ∈ twice l, BeginLEStrict r c := by
      intro c hc
      have := hr c (mem_twice.mp hc)
      exact ⟨by omega, fun h => by omega⟩
    refine List.sorted_cons.mpr ⟨?_, List.sorted_cons.mpr ⟨hmem, ih hl⟩⟩
    intro c hc
    rcases List.mem_cons.mp hc with rfl | hc
    · exact ⟨le_rfl, fun _ => rfl⟩
    · exact hmem c hc

theorem chain_twice (w : Width) : ∀ (rest : List Range) (a : Range),
    (a :: rest).Pairwise (fun a b => a.end_ < b.begin) →
      (∀ r ∈ a :: rest, SelfMerges w r) → List.Chain (Step w) a (a :: twice rest) := by
  intro rest
  induction rest with
  | nil =>
    intro a _ hself
    exact List.Chain.cons (Or.inl ⟨rfl, hself a (List.mem_cons_self _ _)⟩) List.Chain.nil
  | cons b rest ih =>
    intro a hp hself
    obtain ⟨ha, hrest⟩ := List.pairwise_cons.mp hp
    refine List.Chain.cons (Or.inl ⟨rfl, hself a (List.mem_cons_self _ _)⟩) ?_
    exact List.Chain.cons (Or.inr (ha b (List.mem_cons_self _ _)))
      (ih b hrest (fun r hr => hself r (List.mem_cons_of_mem _ hr)))

/-- `operator or` of a sequence with itself is canonical and has the member values of the
sequence, for every outcome of the sort, when the sequence is non-empty and ascending with
every interval ending before the next begins (adjacent intervals allowed) and no interval
fails the test of line 84 against itself. -/
theorem orSorted_twice (w : Width) (C : List Range) (hne : C ≠ []) (hd : InDomain w C)
    (hw : WellFormed C) (hlt : C.Pairwise (fun a b => a.end_ < b.begin))
    (hself : ∀ r ∈ C, SelfMerges w r) (sorted : List Range)
    (hs : SortOutcome (C ++ C) sorted) :
    ∃ res, orSorted w sorted = some res ∧ Canonical w res ∧
      ∀ x, Covers res x ↔ Covers C x := by
  have hne2 : C ++ C ≠ [] := by simp [hne]
  obtain ⟨res, hres, hcov⟩ := orSorted_covers w (C ++ C) sorted hne2 hs
  refine ⟨res, hres, ?_, fun x => by rw [hcov x, covers_append, or_self]⟩
  have hdisj : C.Pairwise Disjoint := hlt.imp (fun h => Or.inl h)
  have hinjC := begin_inj_of_disjoint hw hdisj
  have hinj : ∀ a ∈ C ++ C, ∀ b ∈ C ++ C, a.begin = b.begin → a = b := by
    intro a ha b hb
    exact hinjC a (by simpa using ha) b (by simpa using hb)
  have hblt : C.Pairwise (fun a b => a.begin < b.begin) := by
    refine List.Pairwise.imp_of_mem ?_ hlt
    intro a b ha _ hab
    have := hw a ha
    omega
  have h := sortOutcome_unique hinj (twice_perm C) (twice_sorted_of_lt hblt) hs
  subst h
  cases C with
  | nil => exact absurd rfl hne
  | cons a rest =>
    simp only [twice, orSorted, Option.some.injEq] at hres
    subst hres
    have hd2 : InDomain w (a :: a :: twice rest) := by
      intro r hr
      have hr2 : r ∈ twice (a :: rest) := hr
      exact hd r (mem_twice.mp hr2)
    have hw2 : WellFormed (a :: a :: twice rest) := by
      intro r hr
      have hr2 : r ∈ twice (a :: rest) := hr
      exact hw r (mem_twice.mp hr2)
    exact (sweep_chain w (a :: twice rest) a a (chain_twice w rest a hlt hself) hd2 hw2 rfl
      le_rfl).1

/-- In a canonical sequence a value and its successor that are both members lie in one and
the same interval. -/
theorem same_interval_of_succ {S : List Range} (hw : WellFormed S) (hs : Separated S)
    {r1 r2 : Range} (h1 : r1 ∈ S) (h2 : r2 ∈ S) {v : Nat} (hv1 : r1.Contains v)
    (hv2 : r2.Contains (v + 1)) : r1 = r2 := by
  have hR : S.Pairwise (fun a b : Range =>
      a = b ∨ a.end_ + 1 < b.begin ∨ b.end_ + 1 < a.begin) :=
    (separated_pairwise_apart S hw hs).imp (fun h => Or.inr (Or.inl h))
  have hsymm : Symmetric (fun a b : Range =>
      a = b ∨ a.end_ + 1 < b.begin ∨ b.end_ + 1 < a.begin) := by
    intro x y h
    rcases h with h | h | h
    · exact Or.inl h.symm
    · exact Or.inr (Or.inr h)
    · exact Or.inr (Or.inl h)
  have h := List.Pairwise.forall_of_forall hsymm (fun _ _ => Or.inl rfl) hR h1 h2
  have := hv1.1
  have := hv1.2
  have := hv2.1
  have := hv2.2
  rcases h with h | h | h
  · exact h
  · omega
  · omega

theorem covers_ge_head {S : List Range} (hw : WellFormed S) (hs : Separated S)
    (hne : S ≠ []) {p : Nat} (hp : Covers S p) : (S.head hne).begin ≤ p := by
  cases S with
  | nil => exact absurd rfl hne
  | cons a l =>
    obtain ⟨c, hc, hcp⟩ := hp
    have hcp1 := hcp.1
    rcases List.mem_cons.mp hc with rfl | hc
    · exact hcp1
    · have := separated_lt_of_mem l a hw hs c hc
      have := hw a (List.mem_cons_self _ _)
      simp only [List.head_cons]
      omega

theorem covers_le_getLast : ∀ {S : List Range}, WellFormed S → Separated S →
    ∀ (hne : S ≠ []) {p : Nat}, Covers S p → p ≤ (S.getLast hne).end_ := by
  intro S
  induction S with
  | nil => intro _ _ hne; exact absurd rfl hne
  | cons a l ih =>
    intro hw hs hne p hp
    cases l with
    | nil =>
      obtain ⟨c, hc, hcp⟩ := hp
      rw [List.mem_singleton] at hc
      subst hc
      exact hcp.2
    | cons b rest =>
      have hb := hw b (List.mem_cons_of_mem _ (List.mem_cons_self _ _))
      have hab : a.end_ + 1 < b.begin := hs.1
      have hlast : ∀ q, Covers (b :: rest) q →
          q ≤ ((a :: b :: rest).getLast hne).end_ := by
        intro q hq
        have := ih hw.wf_tail hs.sep_tail (List.cons_ne_nil b rest) hq
        simpa [List.getLast_cons_cons] using this
      rcases (covers_cons a (b :: rest) p).mp hp with h | h
      · have := hlast b.begin ⟨b, List.mem_cons_self _ _, le_rfl, hb⟩
        have := h.2
        omega
      · exact hlast p h

theorem to_collapsed_ne_nil (m : Mask) (hip : Canonical .w32 m.ips_ranges)
    (hport : Canonical .w16 m.port_ranges) (hipne : m.ips_ranges ≠ [])
    (hportne : m.port_ranges ≠ []) : m.to_collapsed ≠ [] := by
  intro hnil
  have ha := List.head_mem hipne
  have hp := List.head_mem hportne
  have haw := hip.2.1 _ ha
  have hpw := hport.2.1 _ hp
  have hcov : Covers m.to_collapsed
      ((m.ips_ranges.head hipne).begin * 65536 + (m.port_ranges.head hportne).begin) :=
    (to_collapsed_covers m hip.1 hport.1 _).mpr
      ⟨_, _, ⟨_, ha, le_rfl, haw⟩, ⟨_, hp, le_rfl, hpw⟩, rfl⟩
  rw [hnil] at hcov
  exact covers_nil _ hcov

/-- In a canonical sequence with the member values of the expansion, the last value of an
address and the first value of the next address lie in one interval exactly when the last
port range ends at `65535` and the first begins at `0`. -/
theorem merged_iff (m : Mask) (hip : Canonical .w32 m.ips_ranges)
    (hport : Canonical .w16 m.port_ranges) (hportne : m.port_ranges ≠ [])
    (res : List Range) (hres : Canonical .w64 res)
    (hcov : ∀ x, Covers res x ↔ Covers m.to_collapsed x) (ip : Nat)
    (h1 : Covers m.ips_ranges ip) (h2 : Covers m.ips_ranges (ip + 1)) :
    InOneInterval res ((ip <<< 16) + (m.port_ranges.getLast hportne).end_)
        (((ip + 1) <<< 16) + (m.port_ranges.head hportne).begin) ↔
      ((m.port_ranges.getLast hportne).end_ = 65535 ∧
        (m.port_ranges.head hportne).begin = 0) := by
  have hlp := List.getLast_mem hportne
  have hfp := List.head_mem hportne
  have hlpd := hport.1 _ hlp
  have hfpd := hport.1 _ hfp
  have hlpw := hport.2.1 _ hlp
  have hfpw := hport.2.1 _ hfp
  simp only [Width.card, Width.bits] at hlpd hfpd
  have hclast : Covers m.port_ranges (m.port_ranges.getLast hportne).end_ :=
    ⟨_, hlp, hlpw, le_rfl⟩
  have hcfirst : Covers m.port_ranges (m.port_ranges.head hportne).begin :=
    ⟨_, hfp, le_rfl, hfpw⟩
  have hport_lt : ∀ p, Covers m.port_ranges p → p < 65536 := by
    intro p hp
    have := covers_lt_card hport.1 hp
    simpa [Width.card, Width.bits] using this
  have hlast : ∀ q, Covers m.port_ranges q → q ≤ (m.port_ranges.getLast hportne).end_ :=
    fun q hq => covers_le_getLast hport.2.1 hport.2.2 hportne hq
  have hfirst : ∀ q, Covers m.port_ranges q → (m.port_ranges.head hportne).begin ≤ q :=
    fun q hq => covers_ge_head hport.2.1 hport.2.2 hportne hq
  simp only [Nat.shiftLeft_eq, InOneInterval]
  constructor
  · rintro ⟨r, hr, hc1, hc2⟩
    have hc11 := hc1.1
    have hc12 := hc1.2
    have hc21 := hc2.1
    have hc22 := hc2.2
    constructor
    · by_contra hne
      have hmem : Covers res (ip * 2 ^ 16 + (m.port_ranges.getLast hportne).end_ + 1) :=
        ⟨r, hr, by omega, by omega⟩
      obtain ⟨ip', p', -, hp', heq⟩ :=
        (to_collapsed_covers m hip.1 hport.1 _).mp ((hcov _).mp hmem)
      have := hport_lt p' hp'
      have := hlast p' hp'
      omega
    · by_contra hne
      have hmem : Covers res ((ip + 1) * 2 ^ 16 + (m.port_ranges.head hportne).begin - 1) :=
        ⟨r, hr, by omega, by omega⟩
      obtain ⟨ip', p', -, hp', heq⟩ :=
        (to_collapsed_covers m hip.1 hport.1 _).mp ((hcov _).mp hmem)
      have := hport_lt p' hp'
      have := hfirst p' hp'
      omega
  · rintro ⟨hle, hfb⟩
    have hv1 : Covers res (ip * 2 ^ 16 + (m.port_ranges.getLast hportne).end_) :=
      (hcov _).mpr ((to_collapsed_covers m hip.1 hport.1 _).mpr
        ⟨ip, _, h1, hclast, by omega⟩)
    have hv2 : Covers res (ip * 2 ^ 16 + (m.port_ranges.getLast hportne).end_ + 1) :=
      (hcov _).mpr ((to_collapsed_covers m hip.1 hport.1 _).mpr
        ⟨ip + 1, _, h2, hcfirst, by omega⟩)
    obtain ⟨r1, hr1, hc1⟩ := hv1
    obtain ⟨r2, hr2, hc2⟩ := hv2
    have heq := same_interval_of_succ hres.2.1 hres.2.2 hr1 hr2 hc1 hc2
    subst heq
    refine ⟨r1, hr1, hc1, ?_⟩
    have e : (ip + 1) * 2 ^ 16 + (m.port_ranges.head hportne).begin =
        ip * 2 ^ 16 + (m.port_ranges.getLast hportne).end_ + 1 := by omega
    rw [e]
    exact hc2

theorem canonical_trichotomy {S : List Range} (hw : WellFormed S) (hs : Separated S)
    {a b : Range} (ha : a ∈ S) (hb : b ∈ S) :
    a = b ∨ a.end_ + 1 < b.begin ∨ b.end_ + 1 < a.begin := by
  have hR : S.Pairwise (fun a b : Range =>
      a = b ∨ a.end_ + 1 < b.begin ∨ b.end_ + 1 < a.begin) :=
    (separated_pairwise_apart S hw hs).imp (fun h => Or.inr (Or.inl h))
  have hsymm : Symmetric (fun a b : Range =>
      a = b ∨ a.end_ + 1 < b.begin ∨ b.end_ + 1 < a.begin) := by
    intro x y h
    rcases h with h | h | h
    · exact Or.inl h.symm
    · exact Or.inr (Or.inr h)
    · exact Or.inr (Or.inl h)
  exact List.Pairwise.forall_of_forall hsymm (fun _ _ => Or.inl rfl) hR ha hb

theorem separated_of_pairwise_apart : ∀ {S : List Range},
    S.Pairwise (fun a b => a.end_ + 1 < b.begin) → Separated S := by
  intro S
  induction S with
  | nil => intro _; trivial
  | cons a l ih =>
    intro hp
    obtain ⟨ha, hl⟩ := List.pairwise_cons.mp hp
    exact separated_cons ha (ih hl)

/-- Unless the last port range ends at `65535` and the first begins at `0`, the expansion of
canonical IP and port ranges is itself in canonical form. -/
theorem to_collapsed_canonical (m : Mask) (hip : Canonical .w32 m.ips_ranges)
    (hport : Canonical .w16 m.port_ranges) (hportne : m.port_ranges ≠ [])
    (hgap : ¬ ((m.port_ranges.getLast hportne).end_ = 65535 ∧
      (m.port_ranges.head hportne).begin = 0)) : Canonical .w64 m.to_collapsed := by
  have hlt48 := to_collapsed_lt m hip.1 hport.1
  refine ⟨?_, to_collapsed_wellFormed m hip hport, ?_⟩
  · intro r hr
    have := hlt48 r hr
    simp only [Width.card, Width.bits]
    omega
  · refine separated_of_pairwise_apart ?_
    refine List.Pairwise.imp_of_mem ?_ (to_collapsed_pairwise m hip hport)
    intro a b ha hb hab
    obtain ⟨i1, -, p, hp, rfl⟩ := (mem_to_collapsed m hip.1 hport.1 a).mp ha
    obtain ⟨i2, -, q, hq, rfl⟩ := (mem_to_collapsed m hip.1 hport.1 b).mp hb
    have hpd := hport.1 p hp
    have hqd := hport.1 q hq
    have hpw := hport.2.1 p hp
    have hqw := hport.2.1 q hq
    simp only [Width.card, Width.bits] at hpd hqd
    have h1 := covers_le_getLast hport.2.1 hport.2.2 hportne ⟨p, hp, hpw, le_rfl⟩
    have h2 := covers_ge_head hport.2.1 hport.2.2 hportne ⟨q, hq, le_rfl, hqw⟩
    have h3 := (hport.1 _ (List.getLast_mem hportne)).2
    simp only [Width.card, Width.bits] at h3
    have htri := canonical_trichotomy hport.2.1 hport.2.2 hp hq
    simp only at hab ⊢
    rcases htri with rfl | h | h <;> omega

/-- C18: `operator or` of the expansion with itself canonicalizes it.  For every mask whose
IP ranges and port ranges are non-empty and canonical, with `C = to_collapsed()`, for every
outcome of the sort `C OR C` is a sequence in canonical form with the member values of
`C`; for consecutive addresses `ip`, `ip + 1` of the mask, the last value of `ip` and the
first value of `ip + 1` lie in one interval of `C OR C` exactly when the last port range
ends at `65535` and the first begins at `0`; and when that is not so, nothing is merged:
`C OR C` is `C`. -/
theorem or_self_canonicalizes (m : Mask) (hip : Canonical .w32 m.ips_ranges)
    (hport : Canonical .w16 m.port_ranges) (hipne : m.ips_ranges ≠ [])
    (hportne : m.port_ranges ≠ []) :
    (∀ sorted, SortOutcome (m.to_collapsed ++ m.to_collapsed) sorted →
      ∃ res, orSorted .w64 sorted = some res ∧ Canonical .w64 res ∧
        (∀ x, Covers res x ↔ Covers m.to_collapsed x) ∧
        (∀ ip, Covers m.ips_ranges ip → Covers m.ips_ranges (ip + 1) →
          (InOneInterval res ((ip <<< 16) + (m.port_ranges.getLast hportne).end_)
              (((ip + 1) <<< 16) + (m.port_ranges.head hportne).begin) ↔
            ((m.port_ranges.getLast hportne).end_ = 65535 ∧
              (m.port_ranges.head hportne).begin = 0))) ∧
        (¬ ((m.port_ranges.getLast hportne).end_ = 65535 ∧
            (m.port_ranges.head hportne).begin = 0) → res = m.to_collapsed)) ∧
    ∃ res, lor .w64 m.to_collapsed m.to_collapsed = some res ∧ Canonical .w64 res ∧
      ∀ x, Covers res x ↔ Covers m.to_collapsed x := by
  have hlt48 := to_collapsed_lt m hip.1 hport.1
  have hd : InDomain .w64 m.to_collapsed := by
    intro r hr
    have := hlt48 r hr
    simp only [Width.card, Width.bits]
    omega
  have hself : ∀ r ∈ m.to_collapsed, SelfMerges .w64 r := by
    intro r hr
    have := hlt48 r hr
    refine Or.inr (Or.inl ?_)
    simp only [Width.max, Width.card, Width.bits]
    omega
  have key := orSorted_twice .w64 m.to_collapsed
    (to_collapsed_ne_nil m hip hport hipne hportne) hd (to_collapsed_wellFormed m hip hport)
    (to_collapsed_pairwise m hip hport) hself
  constructor
  · intro sorted hs
    obtain ⟨res, hres, hcan, hcov⟩ := key sorted hs
    refine ⟨res, hres, hcan, hcov, ?_, ?_⟩
    · intro ip h1 h2
      exact merged_iff m hip hport hportne res hcan hcov ip h1 h2
    · intro hgap
      have hC := to_collapsed_canonical m hip hport hportne hgap
      exact canonical_ext res m.to_collapsed hcan.2.1 hcan.2.2 hC.2.1 hC.2.2 hcov
  · exact key _ (sortOutcome_sortByBegin _)

theorem or_self_canonicalizes_witness :
    Canonical .w32 (Mask.mk [⟨0, 1⟩] [⟨0, 2⟩]).ips_ranges ∧
    Canonical .w16 (Mask.mk [⟨0, 1⟩] [⟨0, 2⟩]).port_ranges ∧
    (Mask.mk [⟨0, 1⟩] [⟨0, 2⟩]).to_collapsed = [⟨0, 2⟩, ⟨65536, 65538⟩] ∧
    lor .w64 [⟨0, 2⟩, ⟨65536, 65538⟩] [⟨0, 2⟩, ⟨65536, 65538⟩] =
      some [⟨0, 2⟩, ⟨65536, 65538⟩] ∧
    ∃ res, lor .w64 (Mask.mk [⟨0, 1⟩] [⟨0, 2⟩]).to_collapsed
        (Mask.mk [⟨0, 1⟩] [⟨0, 2⟩]).to_collapsed = some res ∧
      Canonical .w64 res ∧
      ∀ x, Covers res x ↔ Covers (Mask.mk [⟨0, 1⟩] [⟨0, 2⟩]).to_collapsed x :=
  ⟨by decide, by decide, by decide, by decide,
    (or_self_canonicalizes (Mask.mk [⟨0, 1⟩] [⟨0, 2⟩]) (by decide) (by decide) (by decide)
      (by decide)).2⟩

end Ranges
